import Mathlib

/-!
Shallow embedding of the DAG workflow engine in `src/graph_workflow.rs`
(`DAGWorkflow` and its operations), together with proofs of the behavioural
properties of the graph store, the cycle guard, the sequential execution
algorithm and the diagnostics.

Modelling conventions:
* `petgraph::StableGraph` node/edge indices are `Nat`; the graph is a list of
  `(index, node)` pairs plus a list of edge records carrying their index.
  Fresh indices come from counters, mirroring the strictly increasing indices
  a `StableGraph` hands out while no removal has taken place.
* `DashMap`/`HashMap` values become association lists with the usual
  lookup/insert operations; only lookup results matter to the claims.
* An agent (`Arc<dyn Agent>`) is its observable behaviour: a function from the
  input string to the outcome of `agent.run(input)` bounded by the
  `tokio::time::timeout` wrapper — success, failure, or elapsed timeout.
* The `async` execution of `execute_node` is modelled sequentially: the
  futures created for the outgoing edges of a node are awaited in order
  (`futures::future::join_all` polls them in creation order), which realises
  one legal interleaving of the cooperative scheduler.
* The recursion of `is_cyclic_util`, `dfs_paths` and `execute_node` is
  bounded by explicit fuel; the fuel supplied by the entry points is large
  enough for the graphs the code runs on (recursion depth is bounded by the
  number of nodes).  Exhausted fuel in the cycle guard conservatively reports
  a cycle.
-/

namespace Rigs

/-- Error type of `graph_workflow.rs` (`GraphWorkflowError`). -/
inductive GraphWorkflowError where
  | AgentError (msg : String)
  | AgentNotFound (msg : String)
  | CycleDetected
  | ExecutionError (msg : String)
  | Timeout (msg : String)
  | Deadlock
  | Canceled
deriving DecidableEq, Repr

/-- The `thiserror` display strings of `GraphWorkflowError`. -/
def GraphWorkflowError.toStr : GraphWorkflowError → String
  | .AgentError m => "Agent Error: " ++ m
  | .AgentNotFound m => "Agent not found: " ++ m
  | .CycleDetected => "Cycle detected in workflow"
  | .ExecutionError m => "Execution error: " ++ m
  | .Timeout m => "Timeout executing agent: " ++ m
  | .Deadlock => "Deadlock detected in workflow execution"
  | .Canceled => "Workflow execution canceled"

/-- Edge weight `Flow`: optional transform and optional condition. -/
structure Flow where
  transform : Option (String → String)
  condition : Option (String → Bool)

/-- The default `Flow` (both fields `None`). -/
def Flow.default : Flow := ⟨none, none⟩

instance {ε α : Type} [DecidableEq ε] [DecidableEq α] : DecidableEq (Except ε α) := fun a b =>
  match a, b with
  | .ok x, .ok y => if h : x = y then .isTrue (by rw [h]) else .isFalse (by simp [h])
  | .error x, .error y => if h : x = y then .isTrue (by rw [h]) else .isFalse (by simp [h])
  | .ok _, .error _ => .isFalse (by simp)
  | .error _, .ok _ => .isFalse (by simp)

/-- Node weight `AgentNode`: the agent name and the cached last result
(the `Mutex<Option<Result<String, GraphWorkflowError>>>` cell). -/
structure AgentNode where
  name : String
  lastResult : Option (Except GraphWorkflowError String)
deriving DecidableEq

/-- One stored edge of the `StableGraph`: its edge index, endpoint node
indices and the `Flow` weight. -/
structure GEdge where
  id : Nat
  source : Nat
  target : Nat
  flow : Flow

/-- Observable behaviour of one `agent.run(input)` call as seen through the
timeout wrapper in `execute_node`. -/
inductive AgentOutcome where
  | ok (out : String)
  | err (msg : String)
  | timedOut

/-- The orchestrator `DAGWorkflow`: registered agents, the workflow graph
(nodes, edges and fresh-index counters) and the name-to-index map. -/
structure DAGWorkflow where
  agents : List (String × (String → AgentOutcome))
  nodes : List (Nat × AgentNode)
  edges : List GEdge
  nextNodeId : Nat
  nextEdgeId : Nat
  nameToNode : List (String × Nat)

namespace DAGWorkflow

/-- Association-list insert with the `DashMap::insert` semantics: replace the
existing entry for the key, or append a fresh one. -/
def alInsert {K α : Type} [BEq K] : List (K × α) → K → α → List (K × α)
  | [], k, v => [(k, v)]
  | p :: rest, k, v => if p.1 == k then (k, v) :: rest else p :: alInsert rest k v

/-- Node indices currently in the graph (`node_indices()`). -/
def nodeIds (g : DAGWorkflow) : List Nat := g.nodes.map (·.1)

/-- `node_weight(idx).map(|n| &n.name)`. -/
def nodeName (g : DAGWorkflow) (idx : Nat) : Option String :=
  (g.nodes.lookup idx).map (·.name)

/-- Successor node indices of `v` (`neighbors_directed(v, Outgoing)`),
one entry per outgoing edge. -/
def succs (g : DAGWorkflow) (v : Nat) : List Nat :=
  (g.edges.filter (fun e => e.source == v)).map (·.target)

/-- `register_agent`: store the agent handle under its name; add a graph node
only if the name is not yet in `name_to_node`. -/
def registerAgent (g : DAGWorkflow) (name : String) (behavior : String → AgentOutcome) :
    DAGWorkflow :=
  match g.nameToNode.lookup name with
  | some _ => { g with agents := alInsert g.agents name behavior }
  | none =>
      { g with
        agents := alInsert g.agents name behavior
        nodes := g.nodes ++ [(g.nextNodeId, ⟨name, none⟩)]
        nameToNode := g.nameToNode ++ [(name, g.nextNodeId)]
        nextNodeId := g.nextNodeId + 1 }

/-- The `name_to_node.entry(name).or_insert_with(|| add_node(..))` step of
`connect_agents`. -/
def getOrInsertNode (g : DAGWorkflow) (name : String) : Nat × DAGWorkflow :=
  match g.nameToNode.lookup name with
  | some i => (i, g)
  | none =>
      (g.nextNodeId,
        { g with
          nodes := g.nodes ++ [(g.nextNodeId, ⟨name, none⟩)]
          nameToNode := g.nameToNode ++ [(name, g.nextNodeId)]
          nextNodeId := g.nextNodeId + 1 })

/-- `add_edge`: append the edge under a fresh edge index. -/
def addEdge (g : DAGWorkflow) (src tgt : Nat) (flow : Flow) : DAGWorkflow :=
  { g with
    edges := g.edges ++ [⟨g.nextEdgeId, src, tgt, flow⟩]
    nextEdgeId := g.nextEdgeId + 1 }

/-- `remove_edge(idx)`: drop the edge with the given edge index. -/
def removeEdgeById (g : DAGWorkflow) (id : Nat) : DAGWorkflow :=
  { g with edges := g.edges.filter (fun e => e.id ≠ id) }

/-- One step of `is_cyclic_util`'s neighbor loop, parameterised by the
recursive call `next` (the nested `is_cyclic_util`).  Returns the cycle flag
and the updated visited set. -/
def dfsSuccs (next : Nat → List Nat → List Nat → Bool × List Nat) :
    List Nat → List Nat → List Nat → Bool × List Nat
  | [], visited, _ => (false, visited)
  | u :: us, visited, stack =>
    if u ∉ visited then
      match next u visited stack with
      | (true, visited1) => (true, visited1)
      | (false, visited1) => dfsSuccs next us visited1 stack
    else if u ∈ stack then
      (true, visited)
    else
      dfsSuccs next us visited stack

/-- `is_cyclic_util(node, visited, rec_stack)`: mark the node visited and on
the recursion stack, then scan its outgoing neighbors.  The recursion stack
is the list of ancestors of the current call. -/
def isCyclicUtil (g : DAGWorkflow) : Nat → Nat → List Nat → List Nat → Bool × List Nat
  | 0, _, visited, _ => (true, visited)
  | fuel + 1, v, visited, stack =>
      dfsSuccs (isCyclicUtil g fuel) (succs g v) (v :: visited) (v :: stack)

/-- The outer loop of `has_cycle`: run the DFS from every not-yet-visited
node index. -/
def hasCycleAux (g : DAGWorkflow) (fuel : Nat) : List Nat → List Nat → Bool
  | [], _ => false
  | v :: vs, visited =>
    if v ∉ visited then
      match isCyclicUtil g fuel v visited [] with
      | (true, _) => true
      | (false, visited1) => hasCycleAux g fuel vs visited1
    else
      hasCycleAux g fuel vs visited

/-- `has_cycle`: DFS from every node with shared visited state.  The fuel
bounds the recursion depth, which never exceeds the number of nodes because
`is_cyclic_util` is only entered on unvisited nodes. -/
def hasCycle (g : DAGWorkflow) : Bool :=
  hasCycleAux g (g.nodes.length + 1) g.nodeIds []

/-- `connect_agents`: check both agents are registered, look up (or lazily
create) the endpoint nodes, insert the edge, and roll the insertion back
with `CycleDetected` if the graph now has a cycle. -/
def connectAgents (g : DAGWorkflow) (f t : String) (flow : Flow) :
    Except GraphWorkflowError Nat × DAGWorkflow :=
  if (g.agents.lookup f).isNone then
    (.error (.AgentNotFound ("Source agent '" ++ f ++ "' not found")), g)
  else if (g.agents.lookup t).isNone then
    (.error (.AgentNotFound ("Target agent '" ++ t ++ "' not found")), g)
  else
    let p1 := g.getOrInsertNode f
    let p2 := p1.2.getOrInsertNode t
    let eid := p2.2.nextEdgeId
    let g2 := p2.2.addEdge p1.1 p2.1 flow
    if hasCycle g2 then
      (.error .CycleDetected, g2.removeEdgeById eid)
    else
      (.ok eid, g2)

/-- `find_edge(from, to)`: the first stored edge with the given endpoints. -/
def findEdge (g : DAGWorkflow) (src tgt : Nat) : Option GEdge :=
  g.edges.find? (fun e => e.source == src && e.target == tgt)

/-- `disconnect_agents`: resolve both endpoints, then remove the first edge
between them. -/
def disconnectAgents (g : DAGWorkflow) (f t : String) :
    Except GraphWorkflowError Unit × DAGWorkflow :=
  match g.nameToNode.lookup f with
  | none => (.error (.AgentNotFound ("Source agent '" ++ f ++ "' not found")), g)
  | some fi =>
    match g.nameToNode.lookup t with
    | none => (.error (.AgentNotFound ("Target agent '" ++ t ++ "' not found")), g)
    | some ti =>
      match g.findEdge fi ti with
      | some e => (.ok (), g.removeEdgeById e.id)
      | none =>
        (.error (.AgentNotFound ("No connection from '" ++ f ++ "' to '" ++ t ++ "'")), g)

/-- `remove_agent`: drop the node, all incident edges, the name mapping and
the agent registration. -/
def removeAgent (g : DAGWorkflow) (name : String) :
    Except GraphWorkflowError Unit × DAGWorkflow :=
  match g.nameToNode.lookup name with
  | none => (.error (.AgentNotFound ("Agent '" ++ name ++ "' not found")), g)
  | some idx =>
    (.ok (),
      { g with
        nodes := g.nodes.filter (fun p => p.1 ≠ idx)
        edges := g.edges.filter (fun e => e.source ≠ idx && e.target ≠ idx)
        nameToNode := g.nameToNode.filter (fun p => p.2 ≠ idx)
        agents := g.agents.filter (fun p => ¬ p.1 == name) })

end DAGWorkflow

open DAGWorkflow

/-- One directed edge step of the workflow graph, as a relation on node
indices. -/
def StepG (g : DAGWorkflow) (v w : Nat) : Prop := w ∈ g.succs v

/-- Reachability along directed edges. -/
def ReachG (g : DAGWorkflow) : Nat → Nat → Prop := Relation.ReflTransGen (StepG g)

/-- The graph contains a directed cycle: some edge `v → w` together with a
path from `w` back to `v`. -/
def HasCycleG (g : DAGWorkflow) : Prop := ∃ v w, StepG g v w ∧ ReachG g w v

/-- Well-formed orchestrator state: every state reachable through the public
API satisfies this. -/
structure WF (g : DAGWorkflow) : Prop where
  edgeIdLt : ∀ e ∈ g.edges, e.id < g.nextEdgeId
  edgeSrcMem : ∀ e ∈ g.edges, e.source ∈ g.nodeIds
  edgeTgtMem : ∀ e ∈ g.edges, e.target ∈ g.nodeIds
  nodeIdLt : ∀ p ∈ g.nodes, p.1 < g.nextNodeId
  idsNodup : g.nodeIds.Nodup
  namesNodup : (g.nodes.map (·.2.name)).Nodup
  nameMap : g.nameToNode = g.nodes.map (fun p => (p.2.name, p.1))
  agentsDom : ∀ p ∈ g.agents, p.1 ∈ g.nodes.map (·.2.name)

theorem stepG_iff {g : DAGWorkflow} {v w : Nat} :
    StepG g v w ↔ ∃ e ∈ g.edges, e.source = v ∧ e.target = w := by
  unfold StepG DAGWorkflow.succs
  simp only [List.mem_map, List.mem_filter, beq_iff_eq]
  constructor
  · rintro ⟨e, ⟨he, hs⟩, ht⟩
    exact ⟨e, he, hs, ht⟩
  · rintro ⟨e, he, hs, ht⟩
    exact ⟨e, ⟨he, hs⟩, ht⟩

/-- Node `x` lies on no directed cycle. -/
def NoCycThru (g : DAGWorkflow) (x : Nat) : Prop :=
  ∀ w, StepG g x w → ¬ ReachG g w x

/-- Every visited node that is off the recursion stack lies on no cycle. -/
def BlacksOK (g : DAGWorkflow) (visited stack : List Nat) : Prop :=
  ∀ x ∈ visited, x ∉ stack → NoCycThru g x

/-- Specification of one `is_cyclic_util` call returning `false`: the visited
set only grows, the entry node ends up visited, and every newly finished node
lies on no cycle. -/
def DfsSpec (g : DAGWorkflow) (f : Nat → List Nat → List Nat → Bool × List Nat) : Prop :=
  ∀ u visited stack r, f u visited stack = (false, r) →
    u ∉ visited → stack ⊆ visited → BlacksOK g visited stack →
    visited ⊆ r ∧ u ∈ r ∧ BlacksOK g r stack

theorem dfsSuccs_spec {g : DAGWorkflow}
    {next : Nat → List Nat → List Nat → Bool × List Nat} (hnext : DfsSpec g next) :
    ∀ (us visited : List Nat) (v : Nat) (stack r : List Nat),
      dfsSuccs next us visited (v :: stack) = (false, r) →
      (v :: stack) ⊆ visited → BlacksOK g visited (v :: stack) →
      visited ⊆ r ∧ BlacksOK g r (v :: stack) ∧ ∀ u ∈ us, u ∈ r ∧ u ∉ v :: stack := by
  intro us
  induction us with
  | nil =>
    intro visited v stack r hrun hsub hbl
    simp only [dfsSuccs] at hrun
    cases hrun
    exact ⟨List.Subset.refl _, hbl, by simp⟩
  | cons u us ih =>
    intro visited v stack r hrun hsub hbl
    simp only [dfsSuccs] at hrun
    by_cases hu : u ∈ visited
    · simp only [hu, not_true_eq_false, if_false] at hrun
      by_cases hstk : u ∈ v :: stack
      · simp only [hstk, if_true] at hrun
        cases hrun
      · simp only [hstk, if_false] at hrun
        obtain ⟨h1, h2, h3⟩ := ih visited v stack r hrun hsub hbl
        refine ⟨h1, h2, ?_⟩
        intro w hw
        rcases List.mem_cons.mp hw with hw | hw
        · exact hw ▸ ⟨h1 hu, hstk⟩
        · exact h3 w hw
    · simp only [hu, not_false_eq_true, if_true] at hrun
      rcases hmid : next u visited (v :: stack) with ⟨b, vmid⟩
      rcases b with _ | _
      · rw [hmid] at hrun
        obtain ⟨hm1, hm2, hm3⟩ := hnext u visited (v :: stack) vmid hmid hu hsub hbl
        obtain ⟨h1, h2, h3⟩ := ih vmid v stack r hrun (fun x hx => hm1 (hsub hx)) hm3
        have hustk : u ∉ v :: stack := fun hc => hu (hsub hc)
        refine ⟨fun x hx => h1 (hm1 hx), h2, ?_⟩
        intro w hw
        rcases List.mem_cons.mp hw with hw | hw
        · exact hw ▸ ⟨h1 hm2, hustk⟩
        · exact h3 w hw
      · rw [hmid] at hrun
        cases hrun

theorem isCyclicUtil_spec (g : DAGWorkflow) : ∀ fuel, DfsSpec g (g.isCyclicUtil fuel) := by
  intro fuel
  induction fuel with
  | zero =>
    intro u visited stack r hrun
    simp only [DAGWorkflow.isCyclicUtil] at hrun
    cases hrun
  | succ fuel ih =>
    intro u visited stack r hrun hu hsub hbl
    simp only [DAGWorkflow.isCyclicUtil] at hrun
    have hsub1 : (u :: stack) ⊆ (u :: visited) := by
      intro x hx
      rcases List.mem_cons.mp hx with hx | hx
      · exact hx ▸ List.mem_cons_self _ _
      · exact List.mem_cons_of_mem _ (hsub hx)
    have hbl1 : BlacksOK g (u :: visited) (u :: stack) := by
      intro x hx hxs
      have hxu : x ≠ u := fun hc => hxs (hc ▸ List.mem_cons_self _ _)
      rcases List.mem_cons.mp hx with hx | hx
      · exact absurd hx hxu
      · exact hbl x hx (fun hc => hxs (List.mem_cons_of_mem _ hc))
    obtain ⟨h1, h2, h3⟩ := dfsSuccs_spec ih (g.succs u) (u :: visited) u stack r hrun hsub1 hbl1
    have huR : u ∈ r := h1 (List.mem_cons_self _ _)
    refine ⟨fun x hx => h1 (List.mem_cons_of_mem _ hx), huR, ?_⟩
    intro x hx hxs
    by_cases hxu : x = u
    · subst hxu
      intro w hw hreach
      have hwsucc : w ∈ g.succs x := hw
      obtain ⟨hwr, hwstk⟩ := h3 w hwsucc
      have hwx : w ≠ x := fun hc => hwstk (hc ▸ List.mem_cons_self _ _)
      rcases Relation.ReflTransGen.cases_head hreach with hc | ⟨w2, hstep2, hreach2⟩
      · exact hwx hc
      · have hreach2w : ReachG g w2 w := Relation.ReflTransGen.tail hreach2 hw
        exact h2 w hwr hwstk w2 hstep2 hreach2w
    · exact h2 x hx (fun hc => by
        rcases List.mem_cons.mp hc with hc | hc
        · exact hxu hc
        · exact hxs hc)

theorem hasCycleAux_spec (g : DAGWorkflow) (fuel : Nat) :
    ∀ (roots visited : List Nat),
      hasCycleAux g fuel roots visited = false →
      (∀ x ∈ visited, NoCycThru g x) →
      ∀ v ∈ roots, NoCycThru g v := by
  intro roots
  induction roots with
  | nil => intro visited _ _ v hv; cases hv
  | cons v vs ih =>
    intro visited hrun hvis w hw
    simp only [hasCycleAux] at hrun
    by_cases hv : v ∈ visited
    · simp only [hv, not_true_eq_false, if_false] at hrun
      rcases List.mem_cons.mp hw with hw | hw
      · exact hw ▸ hvis v hv
      · exact ih visited hrun hvis w hw
    · simp only [hv, not_false_eq_true, if_true] at hrun
      rcases hrec : g.isCyclicUtil fuel v visited [] with ⟨b, visited1⟩
      rcases b with _ | _
      · rw [hrec] at hrun
        have hbl : BlacksOK g visited [] := fun x hx _ => hvis x hx
        obtain ⟨h1, h2, h3⟩ :=
          isCyclicUtil_spec g fuel v visited [] visited1 hrec hv (by simp) hbl
        have hvis1 : ∀ x ∈ visited1, NoCycThru g x := fun x hx =>
          h3 x hx (List.not_mem_nil x)
        rcases List.mem_cons.mp hw with hw | hw
        · exact hw ▸ hvis1 v h2
        · exact ih visited1 hrun hvis1 w hw
      · rw [hrec] at hrun
        cases hrun

/-- Soundness of the cycle guard: when `has_cycle` reports `false` the graph
contains no directed cycle.  Needs every edge source to be a live node, which
holds for every well-formed graph. -/
theorem hasCycle_sound {g : DAGWorkflow}
    (hsrc : ∀ e ∈ g.edges, e.source ∈ g.nodeIds)
    (hfalse : hasCycle g = false) : ¬ HasCycleG g := by
  rintro ⟨v, w, hstep, hreach⟩
  have hv : v ∈ g.nodeIds := by
    obtain ⟨e, he, hs, _⟩ := stepG_iff.mp hstep
    exact hs ▸ hsrc e he
  exact hasCycleAux_spec g (g.nodes.length + 1) g.nodeIds [] hfalse
    (by simp) v hv w hstep hreach

/-- Removing edges cannot create a cycle. -/
theorem noCycle_mono {g g' : DAGWorkflow}
    (hsub : ∀ v w, StepG g' v w → StepG g v w)
    (h : ¬ HasCycleG g) : ¬ HasCycleG g' := by
  rintro ⟨v, w, hstep, hreach⟩
  exact h ⟨v, w, hsub v w hstep, Relation.ReflTransGen.mono hsub hreach⟩

theorem mem_fst_of_lookup_isSome {K α : Type} [BEq K] [LawfulBEq K]
    {l : List (K × α)} {k : K} (h : (l.lookup k).isSome) : k ∈ l.map Prod.fst := by
  induction l with
  | nil => simp [List.lookup] at h
  | cons p l ih =>
    simp only [List.lookup] at h
    by_cases hk : k == p.1
    · simp only [List.map_cons, List.mem_cons]
      exact Or.inl (eq_of_beq hk)
    · simp only [hk, cond_false] at h
      exact List.mem_cons_of_mem _ (ih h)

theorem lookup_nameMap_mem {l : List (Nat × AgentNode)} {k : String} {i : Nat}
    (h : (l.map (fun p => (p.2.name, p.1))).lookup k = some i) : i ∈ l.map Prod.fst := by
  induction l with
  | nil => simp [List.lookup] at h
  | cons p l ih =>
    simp only [List.map_cons, List.lookup] at h
    by_cases hk : k == p.2.name
    · simp only [hk, cond_true, Option.some.injEq] at h
      simp [← h]
    · simp only [hk, cond_false] at h
      exact List.mem_cons_of_mem _ (ih h)

theorem lookup_nameMap_exists {l : List (Nat × AgentNode)} {k : String}
    (h : k ∈ l.map (·.2.name)) :
    ∃ i, (l.map (fun p => (p.2.name, p.1))).lookup k = some i := by
  induction l with
  | nil => simp at h
  | cons p l ih =>
    simp only [List.map_cons, List.lookup]
    by_cases hk : k == p.2.name
    · exact ⟨p.1, by simp [hk]⟩
    · simp only [hk, cond_false]
      apply ih
      rcases List.mem_cons.mp h with h | h
      · exact absurd (beq_iff_eq.mpr h) hk
      · exact h

theorem getOrInsertNode_edges (g : DAGWorkflow) (n : String) :
    (g.getOrInsertNode n).2.edges = g.edges ∧
      (g.getOrInsertNode n).2.nextEdgeId = g.nextEdgeId := by
  unfold DAGWorkflow.getOrInsertNode
  cases g.nameToNode.lookup n <;> simp

theorem getOrInsertNode_nodeIds (g : DAGWorkflow) (n : String) :
    g.nodeIds ⊆ (g.getOrInsertNode n).2.nodeIds := by
  unfold DAGWorkflow.getOrInsertNode
  cases g.nameToNode.lookup n with
  | none => simp [DAGWorkflow.nodeIds, List.subset_append_left]
  | some i => simp

theorem getOrInsertNode_nameMap {g : DAGWorkflow} (n : String)
    (h : g.nameToNode = g.nodes.map (fun p => (p.2.name, p.1))) :
    (g.getOrInsertNode n).2.nameToNode =
      (g.getOrInsertNode n).2.nodes.map (fun p => (p.2.name, p.1)) := by
  unfold DAGWorkflow.getOrInsertNode
  cases g.nameToNode.lookup n with
  | none => simp [h]
  | some i => simpa using h

theorem getOrInsertNode_fst_mem {g : DAGWorkflow} (n : String)
    (h : g.nameToNode = g.nodes.map (fun p => (p.2.name, p.1))) :
    (g.getOrInsertNode n).1 ∈ (g.getOrInsertNode n).2.nodeIds := by
  unfold DAGWorkflow.getOrInsertNode
  rcases hl : g.nameToNode.lookup n with _ | i
  · simp [DAGWorkflow.nodeIds]
  · rw [h] at hl
    simpa [DAGWorkflow.nodeIds] using lookup_nameMap_mem hl

/-- Shared reasoning for `connect_agents` when the inserted edge closes a
directed cycle: the cycle guard fires and the rollback restores the edge
list exactly. -/
theorem connectAgents_cycle_case {g : DAGWorkflow} (hwf : WF g)
    {f t : String} {fi ti : Nat} (flow : Flow)
    (hf : g.nameToNode.lookup f = some fi) (ht : g.nameToNode.lookup t = some ti)
    (hfa : (g.agents.lookup f).isSome) (hta : (g.agents.lookup t).isSome)
    (hcyc : HasCycleG (g.addEdge fi ti flow)) :
    (g.connectAgents f t flow).1 = .error .CycleDetected ∧
      (g.connectAgents f t flow).2.edges = g.edges := by
  have hfi : fi ∈ g.nodeIds := by
    rw [hwf.nameMap] at hf
    exact lookup_nameMap_mem hf
  have hsrc2 : ∀ e ∈ (g.addEdge fi ti flow).edges, e.source ∈ (g.addEdge fi ti flow).nodeIds := by
    intro e he
    simp only [DAGWorkflow.addEdge, List.mem_append, List.mem_singleton] at he
    have hids : (g.addEdge fi ti flow).nodeIds = g.nodeIds := rfl
    rw [hids]
    rcases he with he | he
    · exact hwf.edgeSrcMem e he
    · rw [he]
      exact hfi
  have htrue : hasCycle (g.addEdge fi ti flow) = true := by
    by_contra h
    exact hasCycle_sound hsrc2 (Bool.not_eq_true _ ▸ h) hcyc
  have h1 : g.edges.filter (fun e => decide (e.id ≠ g.nextEdgeId)) = g.edges := by
    refine List.filter_eq_self.mpr fun e he => ?_
    have hne : e.id ≠ g.nextEdgeId := Nat.ne_of_lt (hwf.edgeIdLt e he)
    simpa using hne
  have hrollback : ((g.addEdge fi ti flow).removeEdgeById g.nextEdgeId).edges = g.edges := by
    unfold DAGWorkflow.removeEdgeById DAGWorkflow.addEdge
    simp only [List.filter_append]
    rw [h1]
    simp
  obtain ⟨bf, hbf⟩ := Option.isSome_iff_exists.mp hfa
  obtain ⟨bt, hbt⟩ := Option.isSome_iff_exists.mp hta
  simp only [DAGWorkflow.connectAgents, hbf, hbt, DAGWorkflow.getOrInsertNode, hf, ht]
  simp only [htrue, if_true]
  exact ⟨rfl, hrollback⟩

/-- C1: a `connect_agents` call whose edge would close a cycle fails with
`CycleDetected` and rolls the edge back, leaving the edge set unchanged; and
the graph stays acyclic after every successful mutation (`register_agent`,
`connect_agents`, `disconnect_agents`, `remove_agent`). -/
theorem connect_rollback_and_mutations_acyclic (g : DAGWorkflow) (hwf : WF g) :
    (∀ f t flow fi ti,
        g.nameToNode.lookup f = some fi → g.nameToNode.lookup t = some ti →
        (g.agents.lookup f).isSome → (g.agents.lookup t).isSome →
        HasCycleG (g.addEdge fi ti flow) →
        (g.connectAgents f t flow).1 = .error .CycleDetected ∧
          (g.connectAgents f t flow).2.edges = g.edges) ∧
    (∀ n b, ¬ HasCycleG g → ¬ HasCycleG (g.registerAgent n b)) ∧
    (∀ f t flow eid g', g.connectAgents f t flow = (.ok eid, g') → ¬ HasCycleG g') ∧
    (∀ f t g', ¬ HasCycleG g → g.disconnectAgents f t = (.ok (), g') → ¬ HasCycleG g') ∧
    (∀ n g', ¬ HasCycleG g → g.removeAgent n = (.ok (), g') → ¬ HasCycleG g') := by
  refine ⟨?_, ?_, ?_, ?_, ?_⟩
  · intro f t flow fi ti hf ht hfa hta hcyc
    exact connectAgents_cycle_case hwf flow hf ht hfa hta hcyc
  · intro n b hacyc
    have hedges : (g.registerAgent n b).edges = g.edges := by
      unfold DAGWorkflow.registerAgent
      cases g.nameToNode.lookup n <;> rfl
    apply noCycle_mono _ hacyc
    intro v w hstep
    rw [stepG_iff] at hstep ⊢
    rw [hedges] at hstep
    exact hstep
  · intro f t flow eid g' hok
    simp only [DAGWorkflow.connectAgents] at hok
    split at hok
    · cases hok
    · split at hok
      · cases hok
      · split at hok
        · cases hok
        · rename_i hguard
          have hg' : g' = ((g.getOrInsertNode f).2.getOrInsertNode t).2.addEdge
              (g.getOrInsertNode f).1 ((g.getOrInsertNode f).2.getOrInsertNode t).1 flow := by
            injection hok with h1 h2
            exact h2.symm
          have hsrc : ∀ e ∈ g'.edges, e.source ∈ g'.nodeIds := by
            have hedges1 := getOrInsertNode_edges g f
            have hedges2 := getOrInsertNode_edges (g.getOrInsertNode f).2 t
            intro e he
            rw [hg'] at he
            simp only [DAGWorkflow.addEdge, List.mem_append, List.mem_singleton,
              hedges2.1, hedges1.1] at he
            have hids : g'.nodeIds = ((g.getOrInsertNode f).2.getOrInsertNode t).2.nodeIds := by
              rw [hg']
              rfl
            rw [hids]
            rcases he with he | he
            · exact getOrInsertNode_nodeIds _ t (getOrInsertNode_nodeIds g f (hwf.edgeSrcMem e he))
            · rw [he]
              exact getOrInsertNode_nodeIds _ t (getOrInsertNode_fst_mem f hwf.nameMap)
          have hfalse : hasCycle g' = false := by
            rw [hg']
            exact Bool.not_eq_true _ ▸ hguard
          exact hasCycle_sound hsrc hfalse
  · intro f t g' hacyc hok
    unfold DAGWorkflow.disconnectAgents at hok
    split at hok
    · cases hok
    · split at hok
      · cases hok
      · split at hok
        · rename_i e heq
          have hg' : g' = g.removeEdgeById e.id := by
            injection hok with h1 h2
            exact h2.symm
          apply noCycle_mono _ hacyc
          intro v w hstep
          rw [stepG_iff] at hstep ⊢
          obtain ⟨e2, he2, hs, htg⟩ := hstep
          rw [hg'] at he2
          exact ⟨e2, List.mem_of_mem_filter he2, hs, htg⟩
        · cases hok
  · intro n g' hacyc hok
    unfold DAGWorkflow.removeAgent at hok
    split at hok
    · cases hok
    · rename_i idx heq
      have hg' : g' = { g with
          nodes := g.nodes.filter (fun p => p.1 ≠ idx)
          edges := g.edges.filter (fun e => e.source ≠ idx && e.target ≠ idx)
          nameToNode := g.nameToNode.filter (fun p => p.2 ≠ idx)
          agents := g.agents.filter (fun p => ¬ p.1 == n) } := by
        injection hok with h1 h2
        exact h2.symm
      apply noCycle_mono _ hacyc
      intro v w hstep
      rw [stepG_iff] at hstep ⊢
      obtain ⟨e2, he2, hs, htg⟩ := hstep
      rw [hg'] at he2
      exact ⟨e2, List.mem_of_mem_filter he2, hs, htg⟩

/-- C10: connecting a registered agent to itself always fails with
`CycleDetected` — the single self-loop edge is a cycle for the depth-first
check — and the edge set is rolled back unchanged. -/
theorem connect_self_loop_cycle_detected (g : DAGWorkflow) (hwf : WF g) (n : String)
    (hreg : (g.agents.lookup n).isSome) (flow : Flow) :
    (g.connectAgents n n flow).1 = .error .CycleDetected ∧
      (g.connectAgents n n flow).2.edges = g.edges := by
  have hmem : n ∈ g.agents.map Prod.fst := mem_fst_of_lookup_isSome hreg
  have hname : n ∈ g.nodes.map (·.2.name) := by
    obtain ⟨p, hp, hpn⟩ := List.mem_map.mp hmem
    exact hpn ▸ hwf.agentsDom p hp
  obtain ⟨fi, hfi⟩ := lookup_nameMap_exists hname
  rw [← hwf.nameMap] at hfi
  have hcyc : HasCycleG (g.addEdge fi fi flow) := by
    refine ⟨fi, fi, ?_, Relation.ReflTransGen.refl⟩
    refine stepG_iff.mpr ⟨⟨g.nextEdgeId, fi, fi, flow⟩, ?_, rfl, rfl⟩
    exact List.mem_append_right _ (List.mem_singleton_self _)
  exact connectAgents_cycle_case hwf flow hfi hfi hreg hreg hcyc

/-- `DAGWorkflow::new` (the `name`/`description` metadata strings play no
role in any operation and are omitted). -/
def DAGWorkflow.new : DAGWorkflow := ⟨[], [], [], 0, 0, []⟩

/-- Concrete two-agent workflow used by witnesses. -/
def gAB : DAGWorkflow :=
  (DAGWorkflow.new.registerAgent "A" (fun _ => .ok "respA")).registerAgent "B"
    (fun _ => .ok "respB")

/-- `gAB` with the linear connection A → B. -/
def gLin : DAGWorkflow := (gAB.connectAgents "A" "B" Flow.default).2

theorem gAB_wf : WF gAB := by
  refine ⟨?_, ?_, ?_, ?_, ?_, ?_, ?_, ?_⟩ <;> decide

theorem gLin_wf : WF gLin := by
  refine ⟨?_, ?_, ?_, ?_, ?_, ?_, ?_, ?_⟩ <;> decide

theorem connect_rollback_and_mutations_acyclic_witness :
    (gLin.connectAgents "B" "A" Flow.default).1 = .error .CycleDetected ∧
      (gLin.connectAgents "B" "A" Flow.default).2.edges = gLin.edges := by
  have hcyc : HasCycleG (gLin.addEdge 1 0 Flow.default) := by
    refine ⟨1, 0, ?_, ?_⟩
    · refine stepG_iff.mpr ⟨⟨1, 1, 0, Flow.default⟩, ?_, rfl, rfl⟩
      exact List.Mem.tail _ (List.Mem.head _)
    · refine Relation.ReflTransGen.single ?_
      refine stepG_iff.mpr ⟨⟨0, 0, 1, Flow.default⟩, ?_, rfl, rfl⟩
      exact List.Mem.head _
  exact (connect_rollback_and_mutations_acyclic gLin gLin_wf).1 "B" "A" Flow.default 1 0
    (by decide) (by decide) (by decide) (by decide) hcyc

theorem connect_self_loop_cycle_detected_witness :
    (gLin.connectAgents "A" "A" Flow.default).1 = .error .CycleDetected ∧
      (gLin.connectAgents "A" "A" Flow.default).2.edges = gLin.edges :=
  connect_self_loop_cycle_detected gLin gLin_wf "A" (by decide) Flow.default

/-- Run-scoped execution state of one `execute_workflow` call: the shared
results map, the edge-settlement tracker, the pending-inputs map
(`processed_nodes`), the per-node `last_result` cells (written through the
graph's interior mutability), and an instrumentation log of every actual
`agent.run` invocation. -/
structure RunState where
  results : List (String × Except GraphWorkflowError String)
  edgeTracker : List (Nat × Nat)
  processedNodes : List (Nat × List (Nat × String))
  lastResults : List (Nat × Except GraphWorkflowError String)
  calls : List String
deriving DecidableEq

/-- The empty run state allocated at the start of `execute_workflow`. -/
def initState : RunState := ⟨[], [], [], [], []⟩

/-- `edge_tracker.insert((source, target), true)`. -/
def trackInsert (tracker : List (Nat × Nat)) (p : Nat × Nat) : List (Nat × Nat) :=
  if p ∈ tracker then tracker else tracker ++ [p]

/-- `processed_nodes.entry(target).and_modify(push).or_insert(vec![pair])`. -/
def pushPending : List (Nat × List (Nat × String)) → Nat → Nat × String →
    List (Nat × List (Nat × String))
  | [], tgt, v => [(tgt, [v])]
  | p :: rest, tgt, v =>
    if p.1 == tgt then (p.1, p.2 ++ [v]) :: rest else p :: pushPending rest tgt v

/-- `tokio::time::timeout(3600s, execute_agent(name, input))`: `none` models
the `Elapsed` case, otherwise the `execute_agent` result — the agent's own
error wrapped as `AgentError`, or `AgentNotFound` for an unregistered name
(which returns immediately and cannot time out). -/
def runAgentWithTimeout (g : DAGWorkflow) (name input : String) :
    Option (Except GraphWorkflowError String) :=
  match g.agents.lookup name with
  | none => some (.error (.AgentNotFound ("Agent '" ++ name ++ "' not found")))
  | some run =>
    match run input with
    | .ok out => some (.ok out)
    | .err msg => some (.error (.AgentError msg))
    | .timedOut => none

/-- The outgoing edges of `v` whose condition (if any) accepts `output`
(the `valid_edges` filter of `execute_node`). -/
def validEdges (g : DAGWorkflow) (v : Nat) (output : String) : List GEdge :=
  (g.edges.filter (fun e => e.source == v)).filter
    (fun e => (e.flow.condition.map (fun c => c output)).getD true)

/-- The `all_processed` check of `execute_node`: every incoming edge of the
target must be settled, where an unsettled edge *that carries a condition*
counts as settled when its condition evaluates false on the source's stored
success output, or when the source's stored outcome is an error (both cases
mark the edge settled as a side effect).  The `Iterator::all` short-circuits
at the first unsettled edge. -/
def checkIncomingSettled (g : DAGWorkflow) :
    List (Nat × Nat) → RunState → Bool × RunState
  | [], s => (true, s)
  | p :: ps, s =>
    if p ∈ s.edgeTracker then
      checkIncomingSettled g ps s
    else
      match g.findEdge p.1 p.2 with
      | none => (false, s)
      | some e =>
        match e.flow.condition with
        | none => (false, s)
        | some cond =>
          match g.nodeName p.1 with
          | none => (false, s)
          | some srcName =>
            match s.results.lookup srcName with
            | none => (false, s)
            | some (.ok out) =>
              if cond out then
                (false, s)
              else
                checkIncomingSettled g ps { s with edgeTracker := trackInsert s.edgeTracker p }
            | some (.error _) =>
              checkIncomingSettled g ps { s with edgeTracker := trackInsert s.edgeTracker p }

/-- Aggregation of the pending inputs of a join target: sort by source node
index (`sort_by_key`, a stable sort), format each entry as
`"[From <source-name>] <input>"`, and join with the `"\n\n---\n\n"`
separator.  The `node_weight(..).unwrap()` on the source index is modelled
with a default empty name. -/
def aggregateInput (g : DAGWorkflow) (pairs : List (Nat × String)) : String :=
  let sorted := pairs.insertionSort (fun a b => a.1 ≤ b.1)
  String.intercalate "\n\n---\n\n"
    (sorted.map (fun p => "[From " ++ ((g.nodeName p.1).getD "") ++ "] " ++ p.2))

/-- The future spawned for one valid outgoing edge: apply the transform,
mark the edge settled, append the forwarded input to the target's pending
list, and dispatch the target (ignoring its error) if all of its incoming
edges are settled.  `exec` is the recursive `execute_node` call. -/
def processEdge (g : DAGWorkflow)
    (exec : Nat → String → RunState → Except GraphWorkflowError String × RunState)
    (sourceIdx : Nat) (output : String) (e : GEdge) (s : RunState) : RunState :=
  let nextInput := match e.flow.transform with
    | none => output
    | some tr => tr output
  let s1 := { s with edgeTracker := trackInsert s.edgeTracker (sourceIdx, e.target) }
  let s2 := { s1 with
    processedNodes := pushPending s1.processedNodes e.target (sourceIdx, nextInput) }
  let incoming := (g.edges.filter (fun e2 => e2.target == e.target)).map
    (fun e2 => (e2.source, e.target))
  let checked := checkIncomingSettled g incoming s2
  if checked.1 then
    let aggregated := match checked.2.processedNodes.lookup e.target with
      | some inputs => aggregateInput g inputs
      | none => ""
    (exec e.target aggregated checked.2).2
  else
    checked.2

/-- `execute_node`, sequentialised: memoization check, bounded invocation,
record, then the per-edge futures in creation order.  A timeout returns
early (`?`) without recording anything; an agent error is recorded but its
outgoing edges are not traversed.  The fuel bounds the dispatch recursion
depth (at most the number of nodes on the acyclic graphs the engine
builds). -/
def executeNode (g : DAGWorkflow) :
    Nat → Nat → String → RunState → Except GraphWorkflowError String × RunState
  | 0, _, _, s => (.error (.ExecutionError "recursion limit reached"), s)
  | fuel + 1, nodeIdx, input, s =>
    match g.nodeName nodeIdx with
    | none => (.error (.AgentNotFound "Node not found in graph"), s)
    | some agentName =>
      match s.results.lookup agentName with
      | some cached => (cached, s)
      | none =>
        let called :=
          if (g.agents.lookup agentName).isSome then s.calls ++ [agentName] else s.calls
        match runAgentWithTimeout g agentName input with
        | none => (.error (.Timeout agentName), { s with calls := called })
        | some result =>
          let s1 := { s with
            calls := called
            results := alInsert s.results agentName result
            lastResults := alInsert s.lastResults nodeIdx result }
          match result with
          | .ok output =>
            let s2 := (validEdges g nodeIdx output).foldl
              (fun st e => processEdge g (executeNode g fuel) nodeIdx output e st) s1
            (.ok output, s2)
          | .error err => (.error err, s1)

/-- Start-name validation of `execute_workflow`: resolve every name, failing
fast on the first unknown one. -/
def resolveStarts (g : DAGWorkflow) : List String → Except GraphWorkflowError (List Nat)
  | [] => .ok []
  | a :: rest =>
    match g.nameToNode.lookup a with
    | none => .error (.AgentNotFound ("Start agent '" ++ a ++ "' not found"))
    | some i =>
      match resolveStarts g rest with
      | .error e => .error e
      | .ok l => .ok (i :: l)

/-- The reset loop of `execute_workflow`: clear every node's cached
`last_result`. -/
def resetLastResults (g : DAGWorkflow) : DAGWorkflow :=
  { g with nodes := g.nodes.map (fun p => (p.1, { p.2 with lastResult := none })) }

/-- The per-start-agent tasks of `execute_workflow`, awaited sequentially in
order (one interleaving of `join_all`). -/
def runStarts (g : DAGWorkflow) (fuel : Nat) :
    List Nat → String → RunState → List (Except GraphWorkflowError String) × RunState
  | [], _, s => ([], s)
  | idx :: rest, input, s =>
    let r := executeNode g fuel idx input s
    let rs := runStarts g fuel rest input r.2
    (r.1 :: rs.1, rs.2)

/-- Apply the `last_result` cells written during the run back into the graph
(the interior mutability of the node weights). -/
def writeBackResults (g : DAGWorkflow)
    (lr : List (Nat × Except GraphWorkflowError String)) : DAGWorkflow :=
  { g with nodes := g.nodes.map (fun p =>
      match lr.lookup p.1 with
      | some r => (p.1, { p.2 with lastResult := some r })
      | none => p) }

/-- The first error among the collected start-task outcomes
(`collect::<Result<Vec<_>, _>>` short-circuits at the first `Err`). -/
def firstError : List (Except GraphWorkflowError String) → Option GraphWorkflowError
  | [] => none
  | .ok _ :: rest => firstError rest
  | .error e :: _ => some e

/-- Everything observable about one `execute_workflow` call: its return
value, the graph afterwards (with the mutated `last_result` cells), and the
full run state including the invocation log. -/
structure WorkflowOutput where
  retval : Except GraphWorkflowError (List (String × Except GraphWorkflowError String))
  graph : DAGWorkflow
  trace : RunState

/-- `execute_workflow`: validate the start names, reset every cached
last-result, allocate fresh run state, run one task per start agent, and
either return the results map or map the first task error to
`ExecutionError` (aborting the returned value, after all tasks finished). -/
def executeWorkflow (g : DAGWorkflow) (startAgents : List String) (input : String) :
    WorkflowOutput :=
  match resolveStarts g startAgents with
  | .error e => ⟨.error e, g, initState⟩
  | .ok idxs =>
    let g1 := resetLastResults g
    let outcome := runStarts g1 (g1.nodes.length + 1) idxs input initState
    let g2 := writeBackResults g1 outcome.2.lastResults
    match firstError outcome.1 with
    | some e => ⟨.error (.ExecutionError e.toStr), g2, outcome.2⟩
    | none => ⟨.ok outcome.2.results, g2, outcome.2⟩

/-- Behaviour of a mock agent that always succeeds with a fixed response. -/
def behOk (out : String) : String → AgentOutcome := fun _ => .ok out

/-- Behaviour of a mock agent that always fails. -/
def behErr (msg : String) : String → AgentOutcome := fun _ => .err msg

/-- Behaviour of a mock agent whose invocation always exceeds the timeout. -/
def behTO : String → AgentOutcome := fun _ => .timedOut

/-- Single agent whose invocation times out. -/
def gT : DAGWorkflow := DAGWorkflow.new.registerAgent "A" behTO

/-- A (ok) connected to C (times out) by two parallel unconditioned edges. -/
def gDouble : DAGWorkflow :=
  ((((DAGWorkflow.new.registerAgent "A" (behOk "out")).registerAgent "C" behTO
    ).connectAgents "A" "C" Flow.default).2.connectAgents "A" "C" Flow.default).2

/-- Diamond S → {A, B} → C with unconditioned edges, where A fails and the
other three agents succeed. -/
def gJoin2 : DAGWorkflow :=
  ((((((((DAGWorkflow.new.registerAgent "S" (behOk "s")).registerAgent "A" (behErr "boom")
    ).registerAgent "B" (behOk "b")).registerAgent "C" (behOk "c")
    ).connectAgents "S" "A" Flow.default).2.connectAgents "S" "B" Flow.default
    ).2.connectAgents "A" "C" Flow.default).2.connectAgents "B" "C" Flow.default).2

/-- Single agent that always fails. -/
def gFail : DAGWorkflow := DAGWorkflow.new.registerAgent "A" (behErr "boom")

/-- Chain A → B → C where B times out and a sibling branch A → D succeeds. -/
def gSib : DAGWorkflow :=
  ((((((DAGWorkflow.new.registerAgent "A" (behOk "a")).registerAgent "B" behTO
    ).registerAgent "D" (behOk "d")
    ).connectAgents "A" "B" Flow.default).2.connectAgents "A" "D" Flow.default).2)

/-- C2 counterexample: in the diamond `gJoin2` (node indices S=0, A=1, B=2,
C=3) agent A fails, B's edge into the join C settles, yet C is never
dispatched because the unsettled edge A→C carries no condition — the
settled-as-skipped treatment of failed sources applies only to conditioned
edges, so the failed branch does permanently block the join. -/
theorem error_source_unconditioned_edge_blocks_join :
    (executeWorkflow gJoin2 ["S"] "in").trace.results.lookup "A"
        = some (.error (.AgentError "boom")) ∧
    (2, 3) ∈ (executeWorkflow gJoin2 ["S"] "in").trace.edgeTracker ∧
    (executeWorkflow gJoin2 ["S"] "in").trace.results.lookup "B" = some (.ok "b") ∧
    (executeWorkflow gJoin2 ["S"] "in").trace.results.lookup "C" = none ∧
    (executeWorkflow gJoin2 ["S"] "in").trace.calls = ["S", "A", "B"] := by
  refine ⟨?_, ?_, ?_, ?_, ?_⟩ <;> decide

/-- C3 counterexample: when the failing node is a start agent, its error is
recorded in the run state but `execute_workflow` does not return `Ok` — the
collected task error is mapped to `ExecutionError` and the whole call
returns `Err`, discarding the results map. -/
theorem failing_start_agent_aborts_call :
    (executeWorkflow gFail ["A"] "in").trace.results.lookup "A"
        = some (.error (.AgentError "boom")) ∧
    (executeWorkflow gFail ["A"] "in").retval
        = .error (.ExecutionError "Agent Error: boom") := by
  exact ⟨by decide, by decide⟩

/-- C4 counterexample: a timed-out node produces `Err(Timeout)` by an early
return, so nothing is written to the results map or to the node's cached
last-result slot (the unit was invoked exactly once); for a start node the
timeout even aborts the whole `execute_workflow` call. -/
theorem timeout_outcome_not_recorded :
    (executeWorkflow gT ["A"] "x").trace.calls = ["A"] ∧
    (executeWorkflow gT ["A"] "x").trace.results = [] ∧
    ((executeWorkflow gT ["A"] "x").graph.nodes.lookup 0).map (·.lastResult) = some none ∧
    (executeWorkflow gT ["A"] "x").retval
        = .error (.ExecutionError "Timeout executing agent: A") := by
  refine ⟨?_, ?_, ?_, ?_⟩ <;> decide

/-- C6 counterexample: with two parallel edges A → C and an agent C whose
invocation times out, the sequential run invokes C's unit twice — the
timeout records no results entry, so the second dispatch misses the
memoization check.  At-most-once invocation fails even under sequential
observation. -/
theorem timed_out_node_invoked_twice :
    (executeWorkflow gDouble ["A"] "in").trace.calls.count "C" = 2 ∧
    (executeWorkflow gDouble ["A"] "in").retval.isOk = true := by
  exact ⟨by decide, by decide⟩

/-- A `Flow` whose condition always accepts. -/
def condTrueFlow : Flow := ⟨none, some (fun _ => true)⟩

/-- The `gJoin2` diamond but with the edge A → C carrying an
always-true condition. -/
def gJoinC : DAGWorkflow :=
  ((((((((DAGWorkflow.new.registerAgent "S" (behOk "s")).registerAgent "A" (behErr "boom")
    ).registerAgent "B" (behOk "b")).registerAgent "C" (behOk "c")
    ).connectAgents "S" "A" Flow.default).2.connectAgents "S" "B" Flow.default
    ).2.connectAgents "A" "C" condTrueFlow).2.connectAgents "B" "C" Flow.default).2

/-- C2 (amended): in the all-incoming-edges-settled check, an unsettled
incoming edge whose source's recorded outcome is an error is counted as
settled-as-skipped (and marked settled) only when the edge carries a
condition; an unsettled condition-free edge makes the check fail
immediately, whatever the source's recorded outcome. -/
theorem error_source_settles_only_conditioned_edges (g : DAGWorkflow) :
    (∀ p ps s e cond srcName err,
        p ∉ s.edgeTracker →
        g.findEdge p.1 p.2 = some e →
        e.flow.condition = some cond →
        g.nodeName p.1 = some srcName →
        s.results.lookup srcName = some (.error err) →
        checkIncomingSettled g (p :: ps) s =
          checkIncomingSettled g ps { s with edgeTracker := trackInsert s.edgeTracker p }) ∧
    (∀ p ps s e,
        p ∉ s.edgeTracker →
        g.findEdge p.1 p.2 = some e →
        e.flow.condition = none →
        checkIncomingSettled g (p :: ps) s = (false, s)) := by
  constructor
  · intro p ps s e cond srcName err hmem hfe hcond hname hres
    simp only [checkIncomingSettled, if_neg hmem, hfe, hcond, hname, hres]
  · intro p ps s e hmem hfe hcond
    simp only [checkIncomingSettled, if_neg hmem, hfe, hcond]

theorem error_source_settles_only_conditioned_edges_witness :
    checkIncomingSettled gJoinC [(1, 3)]
        { initState with results := [("A", .error (.AgentError "boom"))] } =
      (true, { initState with
        results := [("A", .error (.AgentError "boom"))], edgeTracker := [(1, 3)] }) ∧
    checkIncomingSettled gJoin2 [(1, 3)]
        { initState with results := [("A", .error (.AgentError "boom"))] } =
      (false, { initState with results := [("A", .error (.AgentError "boom"))] }) := by
  constructor
  · have h := (error_source_settles_only_conditioned_edges gJoinC).1 (1, 3) []
      { initState with results := [("A", .error (.AgentError "boom"))] }
      ⟨2, 1, 3, condTrueFlow⟩ (fun _ => true) "A" (.AgentError "boom")
      (by decide) rfl rfl rfl rfl
    exact h.trans (by decide)
  · exact (error_source_settles_only_conditioned_edges gJoin2).2 (1, 3) []
      { initState with results := [("A", .error (.AgentError "boom"))] }
      ⟨2, 1, 3, Flow.default⟩ (by decide) rfl rfl

/-- C3 (amended): a failing unit invocation is recorded in the results map
and in the cached last-result, its outgoing edges are not traversed (the
settlement tracker and pending-inputs map are untouched and the dispatch
returns without spawning children), and whenever every start task's outcome
is `Ok` the call still returns `Ok` with the accumulated results map.  For a
*start* node, however, the returned error makes `execute_workflow` return
`Err(ExecutionError)` instead of `Ok` (see the counterexample). -/
theorem node_failure_contained (g : DAGWorkflow) :
    (∀ fuel nodeIdx agentName input s err,
        g.nodeName nodeIdx = some agentName →
        s.results.lookup agentName = none →
        runAgentWithTimeout g agentName input = some (.error err) →
        executeNode g (fuel + 1) nodeIdx input s =
          (.error err,
            { s with
              calls := if (g.agents.lookup agentName).isSome then s.calls ++ [agentName]
                else s.calls
              results := alInsert s.results agentName (.error err)
              lastResults := alInsert s.lastResults nodeIdx (.error err) })) ∧
    (∀ starts input idxs,
        resolveStarts g starts = .ok idxs →
        firstError (runStarts (resetLastResults g) ((resetLastResults g).nodes.length + 1)
            idxs input initState).1 = none →
        (executeWorkflow g starts input).retval
          = .ok (runStarts (resetLastResults g) ((resetLastResults g).nodes.length + 1)
              idxs input initState).2.results) := by
  constructor
  · intro fuel nodeIdx agentName input s err hname hres hrun
    simp only [executeNode, hname, hres, hrun]
  · intro starts input idxs hresolve hfe
    simp only [executeWorkflow, hresolve, hfe]

theorem node_failure_contained_witness :
    executeNode gJoin2 1 1 "x" initState =
      (.error (.AgentError "boom"),
        { initState with
          calls := ["A"]
          results := [("A", .error (.AgentError "boom"))]
          lastResults := [(1, .error (.AgentError "boom"))] }) ∧
    (executeWorkflow gJoin2 ["S"] "in").retval.isOk = true := by
  constructor
  · have h := (node_failure_contained gJoin2).1 0 1 "A" "x" initState
      (.AgentError "boom") (by decide) rfl rfl
    exact h.trans (by decide)
  · have h := (node_failure_contained gJoin2).2 ["S"] "in" [0] (by decide) (by decide)
    rw [h]
    rfl

/-- C4 (amended): a timed-out invocation makes `execute_node` return
`Err(Timeout)` early — the outcome is *not* written into the results map,
the cached last-result slot, the settlement tracker or the pending inputs
(only the invocation happened) — and a downstream timeout does not abort
sibling branches: in `gSib`, B times out while its sibling D still runs and
the call returns `Ok` (B simply has no results entry). -/
theorem timeout_early_return (g : DAGWorkflow) :
    (∀ fuel nodeIdx agentName input s,
        g.nodeName nodeIdx = some agentName →
        s.results.lookup agentName = none →
        runAgentWithTimeout g agentName input = none →
        executeNode g (fuel + 1) nodeIdx input s =
          (.error (.Timeout agentName), { s with calls := s.calls ++ [agentName] })) ∧
    ((executeWorkflow gSib ["A"] "in").trace.results.lookup "D" = some (.ok "d") ∧
      (executeWorkflow gSib ["A"] "in").trace.results.lookup "B" = none ∧
      (executeWorkflow gSib ["A"] "in").retval.isOk = true) := by
  constructor
  · intro fuel nodeIdx agentName input s hname hres hrun
    rcases hl : g.agents.lookup agentName with _ | run
    · rw [runAgentWithTimeout, hl] at hrun
      cases hrun
    · have hcalled : (if (g.agents.lookup agentName).isSome then s.calls ++ [agentName]
          else s.calls) = s.calls ++ [agentName] := by
        rw [hl]
        rfl
      simp only [executeNode, hname, hres, hrun, hcalled]
  · exact ⟨by decide, by decide, by decide⟩

theorem timeout_early_return_witness :
    executeNode gT 1 0 "x" initState =
      (.error (.Timeout "A"), { initState with calls := ["A"] }) := by
  have h := (timeout_early_return gT).1 0 0 "A" "x" initState (by decide) rfl rfl
  exact h.trans (by decide)

theorem lookup_alInsert_self {K α : Type} [BEq K] [LawfulBEq K]
    (l : List (K × α)) (k : K) (v : α) : (alInsert l k v).lookup k = some v := by
  induction l with
  | nil => simp [alInsert, List.lookup]
  | cons p rest ih =>
    simp only [alInsert]
    by_cases h : p.1 = k
    · simp [h, List.lookup]
    · have h1 : (p.1 == k) = false := beq_eq_false_iff_ne.mpr h
      have h2 : (k == p.1) = false := beq_eq_false_iff_ne.mpr (Ne.symm h)
      simp [h1, h2, List.lookup, ih]

theorem lookup_alInsert_ne {K α : Type} [BEq K] [LawfulBEq K]
    (l : List (K × α)) (k k' : K) (v : α) (h : k' ≠ k) :
    (alInsert l k v).lookup k' = l.lookup k' := by
  induction l with
  | nil => simp [alInsert, List.lookup, beq_eq_false_iff_ne.mpr h]
  | cons p rest ih =>
    simp only [alInsert]
    by_cases hp : p.1 = k
    · have hkk : (k' == k) = false := beq_eq_false_iff_ne.mpr h
      have hkp : (k' == p.1) = false := beq_eq_false_iff_ne.mpr (hp ▸ h)
      simp [beq_iff_eq.mpr hp, List.lookup, hkk, hkp]
    · have hpf : (p.1 == k) = false := beq_eq_false_iff_ne.mpr hp
      by_cases hk' : k' = p.1
      · simp [hpf, List.lookup, beq_iff_eq.mpr hk']
      · simp [hpf, List.lookup, beq_eq_false_iff_ne.mpr hk', ih]

theorem checkIncomingSettled_fields (g : DAGWorkflow) :
    ∀ (l : List (Nat × Nat)) (s : RunState),
      (checkIncomingSettled g l s).2.results = s.results ∧
      (checkIncomingSettled g l s).2.calls = s.calls ∧
      (checkIncomingSettled g l s).2.processedNodes = s.processedNodes ∧
      (checkIncomingSettled g l s).2.lastResults = s.lastResults := by
  intro l
  induction l with
  | nil => intro s; exact ⟨rfl, rfl, rfl, rfl⟩
  | cons p ps ih =>
    intro s
    simp only [checkIncomingSettled]
    repeat' split
    all_goals first
      | exact ih _
      | exact ⟨rfl, rfl, rfl, rfl⟩

theorem processEdge_results_mono {g : DAGWorkflow}
    {exec : Nat → String → RunState → Except GraphWorkflowError String × RunState}
    (hexec : ∀ idx input s k v, s.results.lookup k = some v →
        (exec idx input s).2.results.lookup k = some v) :
    ∀ src out e s k v, s.results.lookup k = some v →
      (processEdge g exec src out e s).results.lookup k = some v := by
  intro src out e s k v h
  simp only [processEdge]
  split
  · apply hexec
    rw [(checkIncomingSettled_fields g _ _).1]
    exact h
  · rw [(checkIncomingSettled_fields g _ _).1]
    exact h

theorem foldl_processEdge_results_mono {g : DAGWorkflow}
    {exec : Nat → String → RunState → Except GraphWorkflowError String × RunState}
    (hexec : ∀ idx input s k v, s.results.lookup k = some v →
        (exec idx input s).2.results.lookup k = some v) :
    ∀ (es : List GEdge) (src : Nat) (out : String) (s : RunState) k v,
      s.results.lookup k = some v →
      (es.foldl (fun st e => processEdge g exec src out e st) s).results.lookup k = some v := by
  intro es
  induction es with
  | nil => intro src out s k v h; exact h
  | cons e es ih =>
    intro src out s k v h
    exact ih src out _ k v (processEdge_results_mono hexec src out e s k v h)

theorem executeNode_results_mono (g : DAGWorkflow) :
    ∀ fuel nodeIdx input s k v,
      s.results.lookup k = some v →
      (executeNode g fuel nodeIdx input s).2.results.lookup k = some v := by
  intro fuel
  induction fuel with
  | zero => intro nodeIdx input s k v h; exact h
  | succ fuel ih =>
    intro nodeIdx input s k v h
    simp only [executeNode]
    split
    · exact h
    · rename_i agentName hname
      split
      · exact h
      · rename_i hres
        split
        · exact h
        · rename_i result hrun
          have hne : k ≠ agentName := by
            intro hkeq
            rw [hkeq, hres] at h
            cases h
          split
          · refine foldl_processEdge_results_mono (fun idx input s k v h => ih idx input s k v h)
              _ _ _ _ k v ?_
            rw [lookup_alInsert_ne _ _ _ _ hne]
            exact h
          · rw [lookup_alInsert_ne _ _ _ _ hne]
            exact h

/-- The agent registered under `n` never exceeds the timeout bound. -/
def NeverTimesOut (g : DAGWorkflow) (n : String) : Prop :=
  ∀ input, runAgentWithTimeout g n input ≠ none

/-- Invariant tying the invocation log to the results map: `n` was invoked
at most once, and if it was invoked its outcome is recorded. -/
def CallOK (n : String) (s : RunState) : Prop :=
  s.calls.count n ≤ 1 ∧ (n ∈ s.calls → (s.results.lookup n).isSome)

theorem processEdge_callOK {g : DAGWorkflow}
    {exec : Nat → String → RunState → Except GraphWorkflowError String × RunState} {n : String}
    (hexec : ∀ idx input s, CallOK n s → CallOK n (exec idx input s).2) :
    ∀ src out e s, CallOK n s → CallOK n (processEdge g exec src out e s) := by
  intro src out e s h
  simp only [processEdge]
  split
  · apply hexec
    constructor
    · rw [(checkIncomingSettled_fields g _ _).2.1]
      exact h.1
    · intro hmem
      rw [(checkIncomingSettled_fields g _ _).1]
      rw [(checkIncomingSettled_fields g _ _).2.1] at hmem
      exact h.2 hmem
  · constructor
    · rw [(checkIncomingSettled_fields g _ _).2.1]
      exact h.1
    · intro hmem
      rw [(checkIncomingSettled_fields g _ _).1]
      rw [(checkIncomingSettled_fields g _ _).2.1] at hmem
      exact h.2 hmem

theorem foldl_processEdge_callOK {g : DAGWorkflow}
    {exec : Nat → String → RunState → Except GraphWorkflowError String × RunState} {n : String}
    (hexec : ∀ idx input s, CallOK n s → CallOK n (exec idx input s).2) :
    ∀ (es : List GEdge) (src : Nat) (out : String) (s : RunState),
      CallOK n s →
      CallOK n (es.foldl (fun st e => processEdge g exec src out e st) s) := by
  intro es
  induction es with
  | nil => intro src out s h; exact h
  | cons e es ih =>
    intro src out s h
    exact ih src out _ (processEdge_callOK hexec src out e s h)

theorem executeNode_callOK (g : DAGWorkflow) (n : String) (hnt : NeverTimesOut g n) :
    ∀ fuel nodeIdx input s, CallOK n s → CallOK n (executeNode g fuel nodeIdx input s).2 := by
  intro fuel
  induction fuel with
  | zero => intro nodeIdx input s h; exact h
  | succ fuel ih =>
    intro nodeIdx input s h
    simp only [executeNode]
    split
    · exact h
    · rename_i agentName hname
      split
      · exact h
      · rename_i hres
        by_cases hn : agentName = n
        · subst hn
          split
          · rename_i hrun
            exact absurd hrun (hnt input)
          · rename_i result hrun
            have hnotmem : agentName ∉ s.calls := by
              intro hmem
              have hsome := h.2 hmem
              rw [hres] at hsome
              cases hsome
            have hcount0 : s.calls.count agentName = 0 := List.count_eq_zero.mpr hnotmem
            have hok1 : CallOK agentName { s with
                calls := if (g.agents.lookup agentName).isSome then s.calls ++ [agentName]
                  else s.calls
                results := alInsert s.results agentName result
                lastResults := alInsert s.lastResults nodeIdx result } := by
              constructor
              · show (if (g.agents.lookup agentName).isSome then s.calls ++ [agentName]
                    else s.calls).count agentName ≤ 1
                split
                · rw [List.count_append, hcount0]
                  simp
                · rw [hcount0]
                  exact Nat.zero_le 1
              · intro _
                show ((alInsert s.results agentName result).lookup agentName).isSome = true
                rw [lookup_alInsert_self]
                rfl
            split
            · exact foldl_processEdge_callOK (fun idx input s h => ih idx input s h) _ _ _ _ hok1
            · exact hok1
        · have hcalls : ∀ (l : List String), (l ++ [agentName]).count n = l.count n := by
            intro l
            rw [List.count_append, List.count_singleton']
            simp [hn]
          have hmemcalls : ∀ (l : List String), n ∈ l ++ [agentName] → n ∈ l := by
            intro l hmem
            rcases List.mem_append.mp hmem with hm | hm
            · exact hm
            · exact absurd (List.mem_singleton.mp hm) (Ne.symm hn)
          split
          · constructor
            · show (if (g.agents.lookup agentName).isSome then s.calls ++ [agentName]
                  else s.calls).count n ≤ 1
              split
              · rw [hcalls]
                exact h.1
              · exact h.1
            · intro hmem
              refine h.2 ?_
              revert hmem
              show n ∈ (if (g.agents.lookup agentName).isSome then s.calls ++ [agentName]
                  else s.calls) → n ∈ s.calls
              split
              · exact hmemcalls _
              · exact id
          · rename_i result hrun
            have hok1 : CallOK n { s with
                calls := if (g.agents.lookup agentName).isSome then s.calls ++ [agentName]
                  else s.calls
                results := alInsert s.results agentName result
                lastResults := alInsert s.lastResults nodeIdx result } := by
              constructor
              · show (if (g.agents.lookup agentName).isSome then s.calls ++ [agentName]
                    else s.calls).count n ≤ 1
                split
                · rw [hcalls]
                  exact h.1
                · exact h.1
              · intro hmem
                show ((alInsert s.results agentName result).lookup n).isSome = true
                rw [lookup_alInsert_ne _ _ _ _ (Ne.symm hn)]
                refine h.2 ?_
                revert hmem
                show n ∈ (if (g.agents.lookup agentName).isSome then s.calls ++ [agentName]
                    else s.calls) → n ∈ s.calls
                split
                · exact hmemcalls _
                · exact id
            split
            · exact foldl_processEdge_callOK (fun idx input s h => ih idx input s h) _ _ _ _ hok1
            · exact hok1

theorem runStarts_callOK (g : DAGWorkflow) (n : String) (hnt : NeverTimesOut g n)
    (fuel : Nat) :
    ∀ (idxs : List Nat) (input : String) (s : RunState),
      CallOK n s → CallOK n (runStarts g fuel idxs input s).2 := by
  intro idxs
  induction idxs with
  | nil => intro input s h; exact h
  | cons idx rest ih =>
    intro input s h
    exact ih input _ (executeNode_callOK g n hnt fuel idx input s h)

/-- C6 (amended): the memoization check returns the stored value without
re-invoking the unit and without touching any state, and consequently a node
whose unit never times out is invoked at most once per sequential run — but
only because a completed invocation is recorded; a timed-out node records
nothing and can be re-invoked (see the counterexample). -/
theorem memoized_and_at_most_once (g : DAGWorkflow) :
    (∀ fuel nodeIdx agentName input s cached,
        g.nodeName nodeIdx = some agentName →
        s.results.lookup agentName = some cached →
        executeNode g (fuel + 1) nodeIdx input s = (cached, s)) ∧
    (∀ n starts input, NeverTimesOut g n →
        (executeWorkflow g starts input).trace.calls.count n ≤ 1) := by
  constructor
  · intro fuel nodeIdx agentName input s cached hname hres
    simp only [executeNode, hname, hres]
  · intro n starts input hnt
    simp only [executeWorkflow]
    split
    · show initState.calls.count n ≤ 1
      show List.count n [] ≤ 1
      simp
    · rename_i idxs heq
      have hcall : CallOK n (runStarts (resetLastResults g)
          ((resetLastResults g).nodes.length + 1) idxs input initState).2 := by
        refine runStarts_callOK (resetLastResults g) n (fun inp => hnt inp) _ _ input
          initState ⟨?_, ?_⟩
        · show List.count n [] ≤ 1
          simp
        · intro hmem
          exact absurd hmem (List.not_mem_nil n)
      split
      · exact hcall.1
      · exact hcall.1

theorem memoized_and_at_most_once_witness :
    executeNode gAB 1 0 "x" { initState with results := [("A", .ok "z")] } =
      (.ok "z", { initState with results := [("A", .ok "z")] }) ∧
    (executeWorkflow gDouble ["A"] "in").trace.calls.count "A" ≤ 1 := by
  constructor
  · exact (memoized_and_at_most_once gAB).1 0 0 "A" "x" _ (.ok "z") (by decide) rfl
  · exact (memoized_and_at_most_once gDouble).2 "A" ["A"] "in" (fun input h => nomatch h)

instance keyLeTotal : IsTotal (Nat × String) (fun a b => a.1 ≤ b.1) :=
  ⟨fun a b => Nat.le_total a.1 b.1⟩

instance keyLeTrans : IsTrans (Nat × String) (fun a b => a.1 ≤ b.1) :=
  ⟨fun _ _ _ h1 h2 => Nat.le_trans h1 h2⟩

instance keyLtAntisymm : IsAntisymm (Nat × String) (fun a b => a.1 < b.1) :=
  ⟨fun _ _ h1 h2 => absurd (Nat.lt_trans h1 h2) (Nat.lt_irrefl _)⟩

theorem sorted_key_lt_of_nodup {l : List (Nat × String)}
    (hs : List.Sorted (fun a b : Nat × String => a.1 ≤ b.1) l)
    (hn : (l.map Prod.fst).Nodup) :
    List.Sorted (fun a b : Nat × String => a.1 < b.1) l := by
  have hne : l.Pairwise (fun a b : Nat × String => a.1 ≠ b.1) := List.pairwise_map.mp hn
  rw [List.Sorted, List.pairwise_iff_forall_sublist]
  intro a b hab
  have h1 : a.1 ≤ b.1 := List.pairwise_iff_forall_sublist.mp hs hab
  have h2 : a.1 ≠ b.1 := List.pairwise_iff_forall_sublist.mp hne hab
  exact Nat.lt_of_le_of_ne h1 h2

/-- C5: the aggregated input of a join target is a deterministic function of
the multiset of accumulated (source, input) pairs: the pairs are brought
into source-index order (the stable `sort_by_key`), and any two arrival
orders of the same pairs — sources being distinct predecessors — aggregate
to the same string. -/
theorem aggregated_input_deterministic (g : DAGWorkflow) :
    ∀ (p1 p2 : List (Nat × String)),
      p1.Perm p2 → (p1.map Prod.fst).Nodup →
      (p1.insertionSort (fun a b => a.1 ≤ b.1)).Perm p1 ∧
        List.Sorted (fun a b : Nat × String => a.1 ≤ b.1)
          (p1.insertionSort (fun a b => a.1 ≤ b.1)) ∧
        aggregateInput g p1 = aggregateInput g p2 := by
  intro p1 p2 hperm hnodup
  have hs1 := List.sorted_insertionSort (fun a b : Nat × String => a.1 ≤ b.1) p1
  have hs2 := List.sorted_insertionSort (fun a b : Nat × String => a.1 ≤ b.1) p2
  have hp1 := List.perm_insertionSort (fun a b : Nat × String => a.1 ≤ b.1) p1
  have hp2 := List.perm_insertionSort (fun a b : Nat × String => a.1 ≤ b.1) p2
  refine ⟨hp1, hs1, ?_⟩
  have hnodup2 : (p2.map Prod.fst).Nodup := ((hperm.map Prod.fst).nodup_iff).mp hnodup
  have hn1 : ((p1.insertionSort (fun a b => a.1 ≤ b.1)).map Prod.fst).Nodup :=
    ((hp1.map Prod.fst).nodup_iff).mpr hnodup
  have hn2 : ((p2.insertionSort (fun a b => a.1 ≤ b.1)).map Prod.fst).Nodup :=
    ((hp2.map Prod.fst).nodup_iff).mpr hnodup2
  have hperm12 : (p1.insertionSort (fun a b => a.1 ≤ b.1)).Perm
      (p2.insertionSort (fun a b => a.1 ≤ b.1)) :=
    (hp1.trans hperm).trans hp2.symm
  have heq : p1.insertionSort (fun a b => a.1 ≤ b.1) =
      p2.insertionSort (fun a b => a.1 ≤ b.1) :=
    List.eq_of_perm_of_sorted hperm12 (sorted_key_lt_of_nodup hs1 hn1)
      (sorted_key_lt_of_nodup hs2 hn2)
  simp only [aggregateInput, heq]

theorem aggregated_input_deterministic_witness :
    aggregateInput gLin [(1, "x"), (0, "y")] = aggregateInput gLin [(0, "y"), (1, "x")] :=
  ((aggregated_input_deterministic gLin [(1, "x"), (0, "y")] [(0, "y"), (1, "x")]
    (by decide) (by decide)).2).2

/-- The two orchestrators agree on everything except the cached
`last_result` cells. -/
def SameExceptCache (g1 g2 : DAGWorkflow) : Prop :=
  g1.agents = g2.agents ∧ g1.edges = g2.edges ∧ g1.nextNodeId = g2.nextNodeId ∧
    g1.nextEdgeId = g2.nextEdgeId ∧ g1.nameToNode = g2.nameToNode ∧
    g1.nodes.map (fun p => (p.1, p.2.name)) = g2.nodes.map (fun p => (p.1, p.2.name))

/-- C8: after start-name validation succeeds, `execute_workflow` resets
every node's cached last-result to empty before any unit is invoked, so its
entire observable behaviour — return value, final graph and run trace — is
independent of whatever the cache held before the call. -/
theorem cached_results_reset_per_run (g1 g2 : DAGWorkflow) (h : SameExceptCache g1 g2) :
    (∀ p ∈ (resetLastResults g1).nodes, p.2.lastResult = none) ∧
    (∀ starts input idxs, resolveStarts g1 starts = .ok idxs →
      executeWorkflow g1 starts input = executeWorkflow g2 starts input) := by
  have hres : ∀ l, resolveStarts g1 l = resolveStarts g2 l := by
    intro l
    induction l with
    | nil => rfl
    | cons a rest ih => simp only [resolveStarts, h.2.2.2.2.1, ih]
  have hnodes : g1.nodes.map (fun p => (p.1, { p.2 with lastResult := none })) =
      g2.nodes.map (fun p => (p.1, { p.2 with lastResult := none })) := by
    have e1 : ∀ (l : List (Nat × AgentNode)),
        l.map (fun p => (p.1, { p.2 with lastResult := none })) =
          (l.map (fun p => (p.1, p.2.name))).map
            (fun q => (q.1, AgentNode.mk q.2 none)) := by
      intro l
      rw [List.map_map]
      rfl
    rw [e1, e1, h.2.2.2.2.2]
  have hreset : resetLastResults g1 = resetLastResults g2 := by
    unfold resetLastResults
    rw [h.1, h.2.1, h.2.2.1, h.2.2.2.1, h.2.2.2.2.1, hnodes]
  constructor
  · intro p hp
    simp only [resetLastResults, List.mem_map] at hp
    obtain ⟨q, _, hq⟩ := hp
    rw [← hq]
  · intro starts input idxs hok
    have hok2 : resolveStarts g2 starts = .ok idxs := (hres starts) ▸ hok
    simp only [executeWorkflow, hok, hok2, hreset]

theorem cached_results_reset_per_run_witness :
    executeWorkflow { gLin with nodes := [(0, ⟨"A", some (.ok "stale")⟩), (1, ⟨"B", none⟩)] }
        ["A"] "x" =
      executeWorkflow gLin ["A"] "x" := by
  have h := cached_results_reset_per_run
    { gLin with nodes := [(0, ⟨"A", some (.ok "stale")⟩), (1, ⟨"B", none⟩)] } gLin
    ⟨rfl, rfl, rfl, rfl, rfl, by decide⟩
  exact h.2 ["A"] "x" [0] (by decide)

/-- One edge of a mirrored dependency graph (name-level for
`detect_potential_deadlocks`, index-level for reachability of nodes). -/
def StepN {α : Type} (E : List (α × α)) (a b : α) : Prop := (a, b) ∈ E

/-- The dependency graph of `detect_potential_deadlocks`: one name pair per
workflow edge (the incoming-neighbor loop mirrors every edge
source → target). -/
def depEdges (g : DAGWorkflow) : List (String × String) :=
  g.edges.filterMap (fun e =>
    match g.nodeName e.source, g.nodeName e.target with
    | some a, some b => some (a, b)
    | _, _ => none)

/-- One round of forward closure: add every edge target whose source is
already reached. -/
def reachStep {α : Type} [DecidableEq α] (E : List (α × α)) (s : List α) : List α :=
  s ++ (E.filter (fun e => decide (e.1 ∈ s) && decide (e.2 ∉ s))).map (·.2)

/-- Iterated forward closure. -/
def reachIter {α : Type} [DecidableEq α] (E : List (α × α)) : Nat → List α → List α
  | 0, s => s
  | n + 1, s => reachIter E n (reachStep E s)

/-- Decidable reachability in a dependency graph: `E.length + 1` rounds of
forward closure reach every node reachable at all (each useful round adds at
least one of the at most `E.length` distinct edge targets). -/
def reachableNames {α : Type} [DecidableEq α] (E : List (α × α)) (v w : α) : Bool :=
  decide (w ∈ reachIter E (E.length + 1) [v])

/-- Modelled from the documented behaviour of `petgraph::algo::kosaraju_scc`
(an external dependency): the strongly connected components of the
dependency graph, each as the set of names mutually reachable with a
representative; `detect_potential_deadlocks` keeps only components of size
greater than one. -/
def detectPotentialDeadlocks (g : DAGWorkflow) : List (List String) :=
  let names := g.nodes.map (·.2.name)
  let E := depEdges g
  ((names.map (fun n =>
      names.filter (fun w => reachableNames E n w && reachableNames E w n))).dedup).filter
    (fun c => decide (c.length > 1))

theorem reachStep_sound {α : Type} [DecidableEq α] {E : List (α × α)} {v : α} {s : List α}
    (h : ∀ x ∈ s, Relation.ReflTransGen (StepN E) v x) :
    ∀ x ∈ reachStep E s, Relation.ReflTransGen (StepN E) v x := by
  intro x hx
  rcases List.mem_append.mp hx with hx | hx
  · exact h x hx
  · obtain ⟨e, he, hex⟩ := List.mem_map.mp hx
    have hmem := List.mem_filter.mp he
    have h1 : e.1 ∈ s := by
      have hb := hmem.2
      simp only [Bool.and_eq_true, decide_eq_true_eq] at hb
      exact hb.1
    have hstep : StepN E e.1 e.2 := hmem.1
    exact hex ▸ Relation.ReflTransGen.tail (h e.1 h1) hstep

theorem reachIter_sound {α : Type} [DecidableEq α] {E : List (α × α)} {v : α} :
    ∀ (n : Nat) (s : List α), (∀ x ∈ s, Relation.ReflTransGen (StepN E) v x) →
      ∀ x ∈ reachIter E n s, Relation.ReflTransGen (StepN E) v x := by
  intro n
  induction n with
  | zero => intro s h x hx; exact h x hx
  | succ n ih => intro s h x hx; exact ih (reachStep E s) (reachStep_sound h) x hx

theorem reachableNames_sound {α : Type} [DecidableEq α] {E : List (α × α)} {v w : α}
    (h : reachableNames E v w = true) : Relation.ReflTransGen (StepN E) v w := by
  have hmem := of_decide_eq_true h
  refine reachIter_sound (E.length + 1) [v] ?_ w hmem
  intro x hx
  rw [List.mem_singleton.mp hx]

theorem lookup_mem {K α : Type} [BEq K] [LawfulBEq K] {l : List (K × α)} {k : K} {v : α}
    (h : l.lookup k = some v) : (k, v) ∈ l := by
  induction l with
  | nil => cases h
  | cons p rest ih =>
    simp only [List.lookup] at h
    by_cases hk : k == p.1
    · simp only [hk, cond_true, Option.some.injEq] at h
      have hkp : k = p.1 := eq_of_beq hk
      rw [hkp, ← h]
      exact List.mem_cons_self _ _
    · simp only [hk, cond_false] at h
      exact List.mem_cons_of_mem _ (ih h)

theorem lookup_nameMap_of_mem {l : List (Nat × AgentNode)} {i : Nat} {nd : AgentNode}
    {a : String} (hnodup : (l.map (·.2.name)).Nodup) (hmem : (i, nd) ∈ l)
    (hname : nd.name = a) :
    (l.map (fun p => (p.2.name, p.1))).lookup a = some i := by
  induction l with
  | nil => cases hmem
  | cons p rest ih =>
    simp only [List.map_cons, List.lookup]
    rcases List.mem_cons.mp hmem with hm | hm
    · rw [← hm]
      simp [← hname]
    · by_cases hk : a = p.2.name
      · exfalso
        have hmemname : p.2.name ∈ rest.map (·.2.name) :=
          List.mem_map.mpr ⟨(i, nd), hm, by rw [hname, hk]⟩
        exact (List.nodup_cons.mp hnodup).1 hmemname
      · simp only [beq_eq_false_iff_ne.mpr hk, cond_false]
        exact ih (List.nodup_cons.mp hnodup).2 hm

theorem nameMap_lookup_unique {l : List (Nat × AgentNode)} {a b : String} {i : Nat}
    (hnodup : (l.map Prod.fst).Nodup)
    (ha : (l.map (fun p => (p.2.name, p.1))).lookup a = some i)
    (hb : (l.map (fun p => (p.2.name, p.1))).lookup b = some i) : a = b := by
  induction l with
  | nil => cases ha
  | cons p rest ih =>
    simp only [List.map_cons, List.lookup] at ha hb
    by_cases hka : a = p.2.name
    · by_cases hkb : b = p.2.name
      · rw [hka, hkb]
      · exfalso
        simp only [beq_iff_eq.mpr hka, cond_true, Option.some.injEq] at ha
        simp only [beq_eq_false_iff_ne.mpr hkb, cond_false] at hb
        have hmem : i ∈ rest.map Prod.fst := lookup_nameMap_mem hb
        rw [← ha] at hmem
        exact (List.nodup_cons.mp hnodup).1 hmem
    · by_cases hkb : b = p.2.name
      · exfalso
        simp only [beq_iff_eq.mpr hkb, cond_true, Option.some.injEq] at hb
        simp only [beq_eq_false_iff_ne.mpr hka, cond_false] at ha
        have hmem : i ∈ rest.map Prod.fst := lookup_nameMap_mem ha
        rw [← hb] at hmem
        exact (List.nodup_cons.mp hnodup).1 hmem
      · simp only [beq_eq_false_iff_ne.mpr hka, beq_eq_false_iff_ne.mpr hkb,
          cond_false] at ha hb
        exact ih (List.nodup_cons.mp hnodup).2 ha hb

theorem depEdges_mem {g : DAGWorkflow} {a b : String} (h : (a, b) ∈ depEdges g) :
    ∃ e ∈ g.edges, g.nodeName e.source = some a ∧ g.nodeName e.target = some b := by
  unfold depEdges at h
  obtain ⟨e, he, hmatch⟩ := List.mem_filterMap.mp h
  refine ⟨e, he, ?_⟩
  rcases hs : g.nodeName e.source with _ | a'
  · rw [hs] at hmatch
    cases hmatch
  · rcases ht : g.nodeName e.target with _ | b'
    · rw [hs, ht] at hmatch
      cases hmatch
    · rw [hs, ht] at hmatch
      injection hmatch with hab
      injection hab with h1 h2
      exact ⟨h1 ▸ rfl, h2 ▸ rfl⟩

theorem nodeName_lookup {g : DAGWorkflow} {i : Nat} {a : String}
    (hwf : WF g) (h : g.nodeName i = some a) : g.nameToNode.lookup a = some i := by
  rw [hwf.nameMap]
  unfold DAGWorkflow.nodeName at h
  rcases hnd : g.nodes.lookup i with _ | nd
  · rw [hnd] at h
    cases h
  · rw [hnd] at h
    injection h with hname
    exact lookup_nameMap_of_mem hwf.namesNodup (lookup_mem hnd) hname

theorem reachN_lift {g : DAGWorkflow} (hwf : WF g) :
    ∀ {a b : String}, Relation.ReflTransGen (StepN (depEdges g)) a b →
      ∀ ia, g.nameToNode.lookup a = some ia →
      ∃ ib, g.nameToNode.lookup b = some ib ∧ ReachG g ia ib := by
  intro a b hr
  induction hr with
  | refl => intro ia hia; exact ⟨ia, hia, Relation.ReflTransGen.refl⟩
  | tail hr2 hstep ih =>
    intro ia hia
    obtain ⟨ic, hic, hreach⟩ := ih ia hia
    obtain ⟨e, he, hsrc, htgt⟩ := depEdges_mem hstep
    have hlc := nodeName_lookup hwf hsrc
    have hlb := nodeName_lookup hwf htgt
    have hceq : ic = e.source := by
      rw [hlc] at hic
      injection hic with hh
      exact hh.symm
    refine ⟨e.target, hlb, Relation.ReflTransGen.tail hreach ?_⟩
    rw [hceq]
    exact stepG_iff.mpr ⟨e, he, rfl, rfl⟩

/-- C9: whenever the cycle guard passes (`has_cycle` is false, as it is for
every graph built through `connect_agents`), `detect_potential_deadlocks`
returns the empty list: every strongly connected component of the mirrored
dependency graph is a singleton. -/
theorem deadlock_scan_empty_on_acyclic (g : DAGWorkflow) (hwf : WF g)
    (hguard : hasCycle g = false) : detectPotentialDeadlocks g = [] := by
  have hnocyc : ¬ HasCycleG g := hasCycle_sound hwf.edgeSrcMem hguard
  unfold detectPotentialDeadlocks
  rw [List.filter_eq_nil_iff]
  intro c hc
  obtain ⟨n, hn, hcn⟩ := List.mem_map.mp (List.mem_dedup.mp hc)
  have hall : ∀ w ∈ c, w = n := by
    intro w hw
    rw [← hcn] at hw
    have hmf := List.mem_filter.mp hw
    have hb := hmf.2
    simp only [Bool.and_eq_true] at hb
    have h1 : reachableNames (depEdges g) n w = true := hb.1
    have h2 : reachableNames (depEdges g) w n = true := hb.2
    by_contra hwn
    obtain ⟨iN, hiN0⟩ := lookup_nameMap_exists hn
    have hiN : g.nameToNode.lookup n = some iN := by
      rw [hwf.nameMap]
      exact hiN0
    obtain ⟨iw, hiw, hreachNW⟩ := reachN_lift hwf (reachableNames_sound h1) iN hiN
    obtain ⟨iN2, hiN2, hreachWN⟩ := reachN_lift hwf (reachableNames_sound h2) iw hiw
    have hiNeq : iN2 = iN := by
      rw [hiN] at hiN2
      injection hiN2 with hh
      exact hh.symm
    rw [hiNeq] at hreachWN
    have hne : iN ≠ iw := by
      intro heq
      apply hwn
      rw [hwf.nameMap] at hiN hiw
      rw [heq] at hiN
      exact nameMap_lookup_unique hwf.idsNodup hiw hiN
    rcases Relation.ReflTransGen.cases_head hreachNW with hcase | ⟨x, hstepx, hreachx⟩
    · exact hne hcase
    · exact hnocyc ⟨iN, x, hstepx, Relation.ReflTransGen.trans hreachx hreachWN⟩
  have hnodupc : c.Nodup := by
    rw [← hcn]
    exact hwf.namesNodup.filter _
  match c, hall, hnodupc with
  | [], _, _ => simp
  | [x], _, _ => simp
  | x :: y :: cs, hall2, hnd =>
    exfalso
    have hx : x = n := hall2 x (List.mem_cons_self _ _)
    have hy : y = n := hall2 y (List.mem_cons_of_mem _ (List.mem_cons_self _ _))
    have : x ≠ y := by
      have := List.nodup_cons.mp hnd
      intro heq
      exact this.1 (heq ▸ List.mem_cons_self _ _)
    exact this (hx.trans hy.symm)

theorem deadlock_scan_empty_on_acyclic_witness :
    detectPotentialDeadlocks gLin = [] :=
  deadlock_scan_empty_on_acyclic gLin gLin_wf (by decide)

/-- `dfs_paths`: push the node's name, record the accumulated path at a
leaf (a node with no outgoing edges), otherwise recurse into every outgoing
neighbor.  The backtracking `current_path` becomes a value parameter; the
fuel bounds the recursion depth, which on the acyclic graphs the engine
builds never exceeds the number of nodes. -/
def dfsPaths (g : DAGWorkflow) :
    Nat → Nat → List String → List (List String) → List (List String)
  | 0, _, _, acc => acc
  | fuel + 1, v, currentPath, acc =>
    match g.nodeName v with
    | none => acc
    | some name =>
      if (g.succs v).isEmpty then
        acc ++ [currentPath ++ [name]]
      else
        (g.succs v).foldl (fun a u => dfsPaths g fuel u (currentPath ++ [name]) a) acc

/-- `find_execution_paths`: resolve the start names (failing fast like
`execute_workflow`), then run the path DFS from every start with a cleared
current path, accumulating into one list. -/
def findExecutionPaths (g : DAGWorkflow) (startAgents : List String) :
    Except GraphWorkflowError (List (List String)) :=
  match resolveStarts g startAgents with
  | .error e => .error e
  | .ok idxs =>
    .ok (idxs.foldl (fun acc idx => dfsPaths g (g.nodes.length + 1) idx [] acc) [])

/-- The index-level edge list of the workflow graph. -/
def idxEdges (g : DAGWorkflow) : List (Nat × Nat) :=
  g.edges.map (fun e => (e.source, e.target))

/-- A node with no outgoing edges. -/
def isLeafB (g : DAGWorkflow) (v : Nat) : Bool := (g.succs v).isEmpty

/-- The distinct leaf nodes reachable from the given start indices. -/
def reachableLeaves (g : DAGWorkflow) (starts : List Nat) : List Nat :=
  g.nodeIds.filter (fun v => isLeafB g v && starts.any (fun s0 => reachableNames (idxEdges g) s0 v))

/-- Diamond start → {a, b} → end with default edges. -/
def gDiamond : DAGWorkflow :=
  ((((((((DAGWorkflow.new.registerAgent "start" (behOk "s")).registerAgent "a" (behOk "ra")
    ).registerAgent "b" (behOk "rb")).registerAgent "end" (behOk "re")
    ).connectAgents "start" "a" Flow.default).2.connectAgents "start" "b" Flow.default
    ).2.connectAgents "a" "end" Flow.default).2.connectAgents "b" "end" Flow.default).2

/-- C7 counterexample: in the diamond, `find_execution_paths` returns two
start-to-leaf paths while only one distinct leaf node is reachable — the
path count equals the number of start-to-leaf paths, not the number of
distinct reachable leaves (the repository's own diamond test asserts the
count 2). -/
theorem path_count_exceeds_leaf_count :
    findExecutionPaths gDiamond ["start"] =
      .ok [["start", "a", "end"], ["start", "b", "end"]] ∧
    (reachableLeaves gDiamond [0]).length = 1 := by
  exact ⟨by decide, by decide⟩

/-- An index path from `v`: nonempty, starting at `v`, following edges. -/
def IsPath (g : DAGWorkflow) (v : Nat) (l : List Nat) : Prop :=
  l ≠ [] ∧ l.head? = some v ∧ l.Chain' (StepG g)

/-- A start-to-leaf path: an index path ending at a node with no outgoing
edges. -/
def IsLeafPath (g : DAGWorkflow) (v : Nat) (l : List Nat) : Prop :=
  IsPath g v l ∧ ∃ w, l.getLast? = some w ∧ g.succs w = []

/-- The node names along an index path. -/
def pathNames (g : DAGWorkflow) (l : List Nat) : List String :=
  l.map (fun i => (g.nodeName i).getD "")

theorem lookup_isSome_of_mem_keys {K α : Type} [BEq K] [LawfulBEq K]
    {l : List (K × α)} {k : K} (h : k ∈ l.map Prod.fst) : (l.lookup k).isSome := by
  induction l with
  | nil => cases h
  | cons p rest ih =>
    simp only [List.lookup]
    by_cases hk : k == p.1
    · simp [hk]
    · simp only [hk, cond_false]
      rcases List.mem_cons.mp h with hm | hm
      · exact absurd (beq_iff_eq.mpr hm) hk
      · exact ih hm

theorem singleton_isPath (g : DAGWorkflow) (v : Nat) : IsPath g v [v] :=
  ⟨List.cons_ne_nil _ _, rfl, List.chain'_singleton v⟩

theorem leafPath_cons_iff (g : DAGWorkflow) {v : Nat} (hnl : (g.succs v).isEmpty = false) :
    ∀ l, IsLeafPath g v l ↔ ∃ u ∈ g.succs v, ∃ l', IsLeafPath g u l' ∧ l = v :: l' := by
  intro l
  constructor
  · rintro ⟨⟨hne, hhead, hchain⟩, w, hlast, hleaf⟩
    rcases l with _ | ⟨x, rest⟩
    · exact absurd rfl hne
    · have hx : x = v := by
        injection hhead with hh
      subst hx
      rcases rest with _ | ⟨u0, rest'⟩
      · exfalso
        have hwv : w = x := by
          injection hlast with hh
          exact hh.symm
        rw [hwv] at hleaf
        rw [hleaf] at hnl
        cases hnl
      · have hchain2 := List.chain'_cons.mp hchain
        refine ⟨u0, hchain2.1, u0 :: rest', ⟨⟨List.cons_ne_nil _ _, rfl, hchain2.2⟩,
          w, ?_, hleaf⟩, rfl⟩
        rw [← List.getLast?_cons_cons]
        exact hlast
  · rintro ⟨u, hu, l', ⟨⟨hne', hhead', hchain'⟩, w, hlast', hleaf'⟩, hl⟩
    subst hl
    rcases l' with _ | ⟨x, rest⟩
    · exact absurd rfl hne'
    · have hx : x = u := by
        injection hhead' with hh
      subst hx
      refine ⟨⟨List.cons_ne_nil _ _, rfl, List.chain'_cons.mpr ⟨hu, hchain'⟩⟩,
        w, ?_, hleaf'⟩
      rw [List.getLast?_cons_cons]
      exact hlast'

theorem foldl_dfsPaths_mem (g : DAGWorkflow) (fuel : Nat) (pre : List String) :
    ∀ (us : List Nat),
      (∀ u ∈ us, ∀ (a : List (List String)) (q : List String),
          q ∈ dfsPaths g fuel u pre a ↔
            q ∈ a ∨ ∃ l, IsLeafPath g u l ∧ q = pre ++ pathNames g l) →
      ∀ (acc : List (List String)) (q : List String),
        q ∈ us.foldl (fun a u => dfsPaths g fuel u pre a) acc ↔
          q ∈ acc ∨ ∃ u ∈ us, ∃ l, IsLeafPath g u l ∧ q = pre ++ pathNames g l := by
  intro us
  induction us with
  | nil =>
    intro _ acc q
    simp
  | cons u us ih =>
    intro hspec acc q
    simp only [List.foldl_cons]
    rw [ih (fun u2 hu2 a q2 => hspec u2 (List.mem_cons_of_mem _ hu2) a q2) _ q]
    rw [hspec u (List.mem_cons_self _ _) acc q]
    constructor
    · rintro ((hq | hq) | hq)
      · exact Or.inl hq
      · obtain ⟨l, h1, h2⟩ := hq
        exact Or.inr ⟨u, List.mem_cons_self _ _, l, h1, h2⟩
      · obtain ⟨u2, hu2, l, h1, h2⟩ := hq
        exact Or.inr ⟨u2, List.mem_cons_of_mem _ hu2, l, h1, h2⟩
    · rintro (hq | ⟨u2, hu2, l, h1, h2⟩)
      · exact Or.inl (Or.inl hq)
      · rcases List.mem_cons.mp hu2 with hm | hm
        · exact Or.inl (Or.inr ⟨l, hm ▸ h1, h2⟩)
        · exact Or.inr ⟨u2, hm, l, h1, h2⟩

theorem dfsPaths_mem (g : DAGWorkflow)
    (htgt : ∀ e ∈ g.edges, e.target ∈ g.nodeIds) :
    ∀ (fuel : Nat) (v : Nat), v ∈ g.nodeIds →
      (∀ l, IsPath g v l → l.length ≤ fuel) →
      ∀ (pre : List String) (acc : List (List String)) (q : List String),
        q ∈ dfsPaths g fuel v pre acc ↔
          q ∈ acc ∨ ∃ l, IsLeafPath g v l ∧ q = pre ++ pathNames g l := by
  intro fuel
  induction fuel with
  | zero =>
    intro v _ hbound
    exact absurd (hbound [v] (singleton_isPath g v)) (by simp)
  | succ fuel ih =>
    intro v hv hbound pre acc q
    obtain ⟨nd, hnd⟩ := Option.isSome_iff_exists.mp (lookup_isSome_of_mem_keys hv)
    have hnm : g.nodeName v = some nd.name := by
      unfold DAGWorkflow.nodeName
      rw [hnd]
      rfl
    simp only [dfsPaths, hnm]
    by_cases hleaf : (g.succs v).isEmpty
    · simp only [hleaf, if_true]
      rw [List.mem_append, List.mem_singleton]
      have hsnil : g.succs v = [] := List.isEmpty_iff.mp hleaf
      constructor
      · rintro (hq | hq)
        · exact Or.inl hq
        · refine Or.inr ⟨[v], ⟨singleton_isPath g v, v, rfl, hsnil⟩, ?_⟩
          rw [hq]
          simp [pathNames, hnm]
      · rintro (hq | ⟨l, ⟨⟨hne, hhead, hchain⟩, w, hlast, _⟩, heq⟩)
        · exact Or.inl hq
        · rcases l with _ | ⟨x, rest⟩
          · exact absurd rfl hne
          · have hx : x = v := by
              injection hhead with hh
            rcases rest with _ | ⟨u0, rest'⟩
            · refine Or.inr ?_
              rw [heq]
              simp [pathNames, hx, hnm]
            · exfalso
              have hstep : u0 ∈ g.succs v := by
                rw [← hx]
                exact (List.chain'_cons.mp hchain).1
              rw [hsnil] at hstep
              cases hstep
    · have hleaf2 : (g.succs v).isEmpty = false := Bool.not_eq_true _ ▸ hleaf
      rw [if_neg hleaf]
      have hspec : ∀ u ∈ g.succs v, ∀ (a : List (List String)) (q2 : List String),
          q2 ∈ dfsPaths g fuel u (pre ++ [nd.name]) a ↔
            q2 ∈ a ∨ ∃ l, IsLeafPath g u l ∧ q2 = (pre ++ [nd.name]) ++ pathNames g l := by
        intro u hu a q2
        have hstep : StepG g v u := hu
        have humem : u ∈ g.nodeIds := by
          obtain ⟨e, he, _, ht⟩ := stepG_iff.mp hstep
          exact ht ▸ htgt e he
        have hbound2 : ∀ l, IsPath g u l → l.length ≤ fuel := by
          intro l hl
          obtain ⟨hne', hhead', hchain'⟩ := hl
          have hpath : IsPath g v (v :: l) := by
            refine ⟨List.cons_ne_nil _ _, rfl, List.chain'_cons'.mpr ⟨?_, hchain'⟩⟩
            intro b hb
            rw [hhead'] at hb
            have hb2 : u = b := by simpa using hb
            rw [← hb2]
            exact hstep
          have := hbound (v :: l) hpath
          simpa using this
        exact ih u humem hbound2 (pre ++ [nd.name]) a q2
      rw [foldl_dfsPaths_mem g fuel (pre ++ [nd.name]) (g.succs v) hspec acc q]
      have hiff := leafPath_cons_iff g hleaf2
      constructor
      · rintro (hq | ⟨u, hu, l', hlp, heq⟩)
        · exact Or.inl hq
        · refine Or.inr ⟨v :: l', (hiff (v :: l')).mpr ⟨u, hu, l', hlp, rfl⟩, ?_⟩
          rw [heq]
          simp [pathNames, hnm]
      · rintro (hq | ⟨l, hlp, heq⟩)
        · exact Or.inl hq
        · obtain ⟨u, hu, l', hlp', hl⟩ := (hiff l).mp hlp
          refine Or.inr ⟨u, hu, l', hlp', ?_⟩
          rw [heq, hl]
          simp [pathNames, hnm]

theorem chain'_reach (g : DAGWorkflow) :
    ∀ (l : List Nat) (u a : Nat), l.Chain' (StepG g) → l.head? = some u → a ∈ l →
      ReachG g u a := by
  intro l
  induction l with
  | nil => intro u a _ _ ha; cases ha
  | cons x rest ih =>
    intro u a hchain hhead ha
    have hx : x = u := by
      injection hhead with hh
    rcases List.mem_cons.mp ha with hax | hax
    · rw [hax, hx]
      exact Relation.ReflTransGen.refl
    · rcases rest with _ | ⟨y, rest'⟩
      · cases hax
      · have hchain2 := List.chain'_cons.mp hchain
        have hreach : ReachG g y a := ih y a hchain2.2 rfl hax
        exact Relation.ReflTransGen.head (hx ▸ hchain2.1) hreach

theorem path_nodup (g : DAGWorkflow) (hacyc : ¬ HasCycleG g) :
    ∀ (l : List Nat) (v : Nat), IsPath g v l → l.Nodup := by
  intro l
  induction l with
  | nil => intro v _; exact List.nodup_nil
  | cons x rest ih =>
    intro v hp
    obtain ⟨_, _, hchain⟩ := hp
    rcases rest with _ | ⟨y, rest'⟩
    · simp
    · have hchain2 := List.chain'_cons.mp hchain
      have hrest : (y :: rest').Nodup := ih y ⟨List.cons_ne_nil _ _, rfl, hchain2.2⟩
      rw [List.nodup_cons]
      refine ⟨?_, hrest⟩
      intro hmem
      have hreach : ReachG g y x := chain'_reach g (y :: rest') y x hchain2.2 rfl hmem
      exact hacyc ⟨x, y, hchain2.1, hreach⟩

theorem path_mem_nodeIds (g : DAGWorkflow) (htgt : ∀ e ∈ g.edges, e.target ∈ g.nodeIds) :
    ∀ (l : List Nat) (v : Nat), IsPath g v l → v ∈ g.nodeIds → ∀ x ∈ l, x ∈ g.nodeIds := by
  intro l
  induction l with
  | nil => intro v _ _ x hx; cases hx
  | cons a rest ih =>
    intro v hp hv x hx
    obtain ⟨_, hhead, hchain⟩ := hp
    have hav : a = v := by
      injection hhead with hh
    rcases List.mem_cons.mp hx with hxa | hxr
    · rw [hxa, hav]
      exact hv
    · rcases rest with _ | ⟨y, rest'⟩
      · cases hxr
      · have hchain2 := List.chain'_cons.mp hchain
        have hy : y ∈ g.nodeIds := by
          obtain ⟨e, he, _, ht⟩ := stepG_iff.mp hchain2.1
          exact ht ▸ htgt e he
        exact ih y ⟨List.cons_ne_nil _ _, rfl, hchain2.2⟩ hy x hxr

theorem path_length_le (g : DAGWorkflow) (hwf : WF g) (hacyc : ¬ HasCycleG g)
    {v : Nat} (hv : v ∈ g.nodeIds) :
    ∀ l, IsPath g v l → l.length ≤ g.nodes.length + 1 := by
  intro l hl
  have hnd : l.Nodup := path_nodup g hacyc l v hl
  have hsub : l ⊆ g.nodeIds := fun x hx => path_mem_nodeIds g hwf.edgeTgtMem l v hl hv x hx
  have hsp : List.Subperm l g.nodeIds := hnd.subperm hsub
  have hle := hsp.length_le
  have hlen : g.nodeIds.length = g.nodes.length := List.length_map _ _
  omega

theorem reach_to_path (g : DAGWorkflow) {v w : Nat} (h : ReachG g v w) :
    ∃ l, IsPath g v l ∧ l.getLast? = some w := by
  induction h with
  | refl => exact ⟨[v], singleton_isPath g v, rfl⟩
  | tail h2 hstep ih =>
    rename_i b c
    obtain ⟨l, ⟨hne, hhead, hchain⟩, hlast⟩ := ih
    refine ⟨l ++ [c], ⟨?_, ?_, ?_⟩, ?_⟩
    · simp
    · rcases l with _ | ⟨a, t⟩
      · exact absurd rfl hne
      · exact hhead
    · refine List.Chain'.append hchain (List.chain'_singleton c) ?_
      intro x hx y hy
      rw [hlast] at hx
      have hx2 : b = x := by simpa using hx
      have hy2 : c = y := by simpa using hy
      rw [← hx2, ← hy2]
      exact hstep
    · exact List.getLast?_concat _

theorem reach_mem_nodeIds (g : DAGWorkflow) (htgt : ∀ e ∈ g.edges, e.target ∈ g.nodeIds)
    {v w : Nat} (hv : v ∈ g.nodeIds) (h : ReachG g v w) : w ∈ g.nodeIds := by
  induction h with
  | refl => exact hv
  | tail h2 hstep ih =>
    obtain ⟨e, he, _, ht⟩ := stepG_iff.mp hstep
    exact ht ▸ htgt e he

theorem getLast?_map_names {α β : Type} (f : α → β) :
    ∀ (l : List α), (l.map f).getLast? = l.getLast?.map f := by
  intro l
  induction l with
  | nil => rfl
  | cons a rest ih =>
    rcases rest with _ | ⟨b, t⟩
    · rfl
    · rw [List.map_cons, List.map_cons, List.getLast?_cons_cons, List.getLast?_cons_cons,
        ← List.map_cons]
      exact ih

theorem nodeName_inj (g : DAGWorkflow) (hwf : WF g) {i j : Nat}
    (hi : i ∈ g.nodeIds) (hj : j ∈ g.nodeIds)
    (hnm : g.nodeName i = g.nodeName j) : i = j := by
  obtain ⟨ni, hni⟩ := Option.isSome_iff_exists.mp (lookup_isSome_of_mem_keys hi)
  obtain ⟨nj, hnj⟩ := Option.isSome_iff_exists.mp (lookup_isSome_of_mem_keys hj)
  have hmi : (i, ni) ∈ g.nodes := lookup_mem hni
  have hmj : (j, nj) ∈ g.nodes := lookup_mem hnj
  have hnames : ni.name = nj.name := by
    unfold DAGWorkflow.nodeName at hnm
    rw [hni, hnj] at hnm
    simpa using hnm
  have hnodes_nd : g.nodes.Nodup := List.Nodup.of_map _ hwf.idsNodup
  have hpair := (List.nodup_map_iff_inj_on hnodes_nd).mp hwf.namesNodup
    (i, ni) hmi (j, nj) hmj hnames
  exact congrArg Prod.fst hpair

theorem length_le_of_inj_rel {α β : Type} [DecidableEq β] :
    ∀ (L : List α) (M : List β) (R : α → β → Prop),
      L.Nodup →
      (∀ x ∈ L, ∃ q ∈ M, R x q) →
      (∀ x x' q, x ∈ L → x' ∈ L → R x q → R x' q → x = x') →
      L.length ≤ M.length := by
  intro L
  induction L with
  | nil => intro M R _ _ _; exact Nat.zero_le _
  | cons x L' ih =>
    intro M R hnd hex hinj
    obtain ⟨q, hqM, hR⟩ := hex x (List.mem_cons_self _ _)
    have hex' : ∀ x' ∈ L', ∃ q' ∈ M.erase q, R x' q' := by
      intro x' hx'
      obtain ⟨q', hq'M, hR'⟩ := hex x' (List.mem_cons_of_mem _ hx')
      have hne : q' ≠ q := by
        intro heq
        have hxx : x = x' := hinj x x' q (List.mem_cons_self _ _)
          (List.mem_cons_of_mem _ hx') hR (heq ▸ hR')
        exact (List.nodup_cons.mp hnd).1 (hxx ▸ hx')
      exact ⟨q', (List.mem_erase_of_ne hne).mpr hq'M, hR'⟩
    have hinj' : ∀ x1 x2 q2, x1 ∈ L' → x2 ∈ L' → R x1 q2 → R x2 q2 → x1 = x2 :=
      fun x1 x2 q2 h1 h2 => hinj x1 x2 q2 (List.mem_cons_of_mem _ h1)
        (List.mem_cons_of_mem _ h2)
    have hlen := ih (M.erase q) R (List.nodup_cons.mp hnd).2 hex' hinj'
    have hM : (M.erase q).length = M.length - 1 := List.length_erase_of_mem hqM
    have hpos : 0 < M.length := List.length_pos.mpr (List.ne_nil_of_mem hqM)
    simp only [List.length_cons]
    omega

theorem resolveStarts_mem (g : DAGWorkflow) (hwf : WF g) :
    ∀ starts idxs, resolveStarts g starts = .ok idxs → ∀ i ∈ idxs, i ∈ g.nodeIds := by
  intro starts
  induction starts with
  | nil =>
    intro idxs h i hi
    simp only [resolveStarts] at h
    injection h with hh
    rw [← hh] at hi
    cases hi
  | cons a rest ih =>
    intro idxs h i hi
    simp only [resolveStarts] at h
    split at h
    · cases h
    · rename_i ia hia
      split at h
      · cases h
      · rename_i l hl
        injection h with hh
        rw [← hh] at hi
        rcases List.mem_cons.mp hi with hm | hm
        · rw [hm]
          rw [hwf.nameMap] at hia
          exact lookup_nameMap_mem hia
        · exact ih l hl i hm

/-- C7 (amended): for an acyclic well-formed graph and a start set that
resolves, `find_execution_paths` returns exactly the start-to-leaf paths
obtainable by exhaustive DFS — membership in the returned list coincides
with being the name sequence of a path from a resolved start to a node with
no outgoing edges — and the number of returned paths is at least (not in
general equal to) the number of distinct reachable leaf nodes. -/
theorem find_execution_paths_characterization (g : DAGWorkflow) (hwf : WF g)
    (hacyc : ¬ HasCycleG g) :
    ∀ starts idxs paths, resolveStarts g starts = .ok idxs →
      findExecutionPaths g starts = .ok paths →
      ((∀ q, q ∈ paths ↔ ∃ v ∈ idxs, ∃ l, IsLeafPath g v l ∧ q = pathNames g l) ∧
        (∀ L : List Nat, L.Nodup →
          (∀ x ∈ L, (g.succs x).isEmpty ∧ ∃ v ∈ idxs, ReachG g v x) →
          L.length ≤ paths.length)) := by
  intro starts idxs paths hres hfind
  have hidx : ∀ i ∈ idxs, i ∈ g.nodeIds := resolveStarts_mem g hwf starts idxs hres
  have hpaths : paths =
      idxs.foldl (fun acc idx => dfsPaths g (g.nodes.length + 1) idx [] acc) [] := by
    unfold findExecutionPaths at hfind
    rw [hres] at hfind
    injection hfind with hh
    exact hh.symm
  have hchar : ∀ q, q ∈ paths ↔ ∃ v ∈ idxs, ∃ l, IsLeafPath g v l ∧ q = pathNames g l := by
    intro q
    rw [hpaths]
    have hspec : ∀ v ∈ idxs, ∀ (a : List (List String)) (q2 : List String),
        q2 ∈ dfsPaths g (g.nodes.length + 1) v [] a ↔
          q2 ∈ a ∨ ∃ l, IsLeafPath g v l ∧ q2 = [] ++ pathNames g l := by
      intro v hv a q2
      exact dfsPaths_mem g hwf.edgeTgtMem (g.nodes.length + 1) v (hidx v hv)
        (path_length_le g hwf hacyc (hidx v hv)) [] a q2
    rw [foldl_dfsPaths_mem g (g.nodes.length + 1) [] idxs hspec [] q]
    simp
  refine ⟨hchar, ?_⟩
  intro L hnd hprop
  refine length_le_of_inj_rel L paths
    (fun x q => q.getLast? = some ((g.nodeName x).getD "")) hnd ?_ ?_
  · intro x hx
    obtain ⟨hleaf, v, hvidx, hreach⟩ := hprop x hx
    obtain ⟨l, hp, hlast⟩ := reach_to_path g hreach
    have hq : pathNames g l ∈ paths := (hchar (pathNames g l)).mpr
      ⟨v, hvidx, l, ⟨hp, x, hlast, List.isEmpty_iff.mp hleaf⟩, rfl⟩
    refine ⟨pathNames g l, hq, ?_⟩
    show (pathNames g l).getLast? = some ((g.nodeName x).getD "")
    unfold pathNames
    rw [getLast?_map_names _ l, hlast]
    rfl
  · intro x x' q hxL hx'L h1 h2
    have hxN : x ∈ g.nodeIds := by
      obtain ⟨_, v, hvidx, hreach⟩ := hprop x hxL
      exact reach_mem_nodeIds g hwf.edgeTgtMem (hidx v hvidx) hreach
    have hx'N : x' ∈ g.nodeIds := by
      obtain ⟨_, v, hvidx, hreach⟩ := hprop x' hx'L
      exact reach_mem_nodeIds g hwf.edgeTgtMem (hidx v hvidx) hreach
    apply nodeName_inj g hwf hxN hx'N
    obtain ⟨n1, hn1⟩ := Option.isSome_iff_exists.mp (lookup_isSome_of_mem_keys hxN)
    obtain ⟨n2, hn2⟩ := Option.isSome_iff_exists.mp (lookup_isSome_of_mem_keys hx'N)
    have hm1 : g.nodeName x = some n1.name := by
      unfold DAGWorkflow.nodeName
      rw [hn1]
      rfl
    have hm2 : g.nodeName x' = some n2.name := by
      unfold DAGWorkflow.nodeName
      rw [hn2]
      rfl
    rw [h2] at h1
    rw [hm1, hm2] at h1 ⊢
    injection h1 with hnn
    simp only [Option.getD_some] at hnn
    rw [hnn]

theorem find_execution_paths_characterization_witness :
    ["start", "a", "end"] ∈ [["start", "a", "end"], ["start", "b", "end"]] ↔
      ∃ v ∈ [0], ∃ l, IsLeafPath gDiamond v l ∧
        ["start", "a", "end"] = pathNames gDiamond l := by
  have h := find_execution_paths_characterization gDiamond
    (by refine ⟨?_, ?_, ?_, ?_, ?_, ?_, ?_, ?_⟩ <;> decide)
    (hasCycle_sound (by decide) (by decide)) ["start"] [0]
    [["start", "a", "end"], ["start", "b", "end"]] (by decide) (by decide)
  exact h.1 ["start", "a", "end"]

end Rigs
